import Mathlib

/-!
Verification of the ingestion pipeline of the AI-SYSTEMS-STARTER repository.

The development shallowly embeds the components the specification talks
about:

* the document classifier `detectLegalDocument`
  (`backend/workers/ingestion_worker.py`, `_detect_legal_document`);
* the pipeline orchestrator `processJob` and the status-store helpers
  (`backend/workers/ingestion_worker.py`, `process_job`,
  `_update_document_status`, `_update_document_completed`,
  `_update_document_failed`);
* the generic segmenter `chunkText` / `estimateChunkCount`
  (`backend/services/chunking_service.py`);
* the clause-aware segmenter `chunkLegalDocument` together with its
  post-processing `optimizeChunkSizes` / `splitLargeChunk`
  (`backend/services/clause_chunking_service.py`).

Texts are embedded as `List Char`; Python's machine strings, regular
expression scans and slice arithmetic are translated into executable
structural recursions so that all statements evaluate by `decide`.
-/

/-! ## Character classes (ASCII fragment of Python's `re` classes) -/

/-- Python `\d` (ASCII fragment). -/
def isDigitChar (c : Char) : Bool := c.isDigit

/-- Python `\s` (ASCII fragment: space, tab, CR, LF). -/
def isWSChar (c : Char) : Bool := c.isWhitespace

/-- Python `\w` (ASCII fragment: letters, digits, underscore). -/
def isWordChar (c : Char) : Bool := c.isAlphanum || c = '_'

/-- The class `[A-Z]` used by the sentence-boundary lookahead. -/
def isUpperChar (c : Char) : Bool := 'A' ≤ c && c ≤ 'Z'

/-- The lookbehind class `[.!?]` of the sentence-boundary pattern. -/
def isSentencePunct (c : Char) : Bool := c = '.' || c = '!' || c = '?'

/-- Roman-numeral letters of the lettered-clause pattern (`IGNORECASE`). -/
def isRomanChar (c : Char) : Bool :=
  let d := c.toLower
  d = 'i' || d = 'v' || d = 'x' || d = 'l' || d = 'c' || d = 'd' || d = 'm'

/-- `needle in haystack` of Python (contiguous subsequence test). -/
def containsSeq (n : List Char) : List Char → Bool
  | [] => n.isEmpty
  | c :: t => n.isPrefixOf (c :: t) || containsSeq n t

/-- Number of (possibly overlapping) positions where `n` occurs in the
haystack; used to state claim C3's reading of "total occurrences". -/
def countOccur (n : List Char) : List Char → Nat
  | [] => if n.isEmpty then 1 else 0
  | c :: t => (if n.isPrefixOf (c :: t) then 1 else 0) + countOccur n t

/-! ## Document classifier (`IngestionWorker._detect_legal_document`) -/

/-- `legal_filename_keywords` from the source. -/
def legalFilenameKeywords : List (List Char) :=
  ["contract".data, "agreement".data, "clause".data, "terms".data,
   "conditions".data, "legal".data, "policy".data, "nda".data,
   "mou".data, "sla".data, "msa".data]

/-- `legal_terms` from the source. -/
def legalTerms : List (List Char) :=
  ["whereas".data, "hereinafter".data, "party".data, "parties".data,
   "terminate".data, "termination".data, "indemnify".data, "liability".data,
   "agreement".data, "contract".data, "executed".data]

/-- Rule 1 of the classifier: the lower-cased filename contains one of the
keywords (`any(keyword in filename_lower ...)`). -/
def filenameHasLegalKeyword (filename : List Char) : Bool :=
  legalFilenameKeywords.any (fun k => containsSeq k (filename.map Char.toLower))

/-- Greedy run of `(?:\.\d+)` groups: returns (consumed length, number of
iterations).  Mirrors the backtracking-free behaviour of the star in
`\b\d+\.\d+(?:\.\d+)*\s+`: an iteration happens exactly when a dot directly
followed by a digit is next. -/
def dotDigitRuns : Nat → List Char → Nat × Nat
  | 0, _ => (0, 0)
  | fuel + 1, '.' :: rest =>
      let ds := rest.takeWhile isDigitChar
      if ds.isEmpty then (0, 0)
      else
        let r := dotDigitRuns fuel (rest.drop ds.length)
        (1 + ds.length + r.1, r.2 + 1)
  | _ + 1, _ => (0, 0)

/-- Attempted match of the clause-number pattern `\d+\.\d+(?:\.\d+)*\s+` at
the head of `l` (the caller checks the leading `\b`).  Returns the number of
characters consumed by a successful match. -/
def clauseMatchLen (l : List Char) : Option Nat :=
  let d1 := l.takeWhile isDigitChar
  if d1.isEmpty then none
  else
    match l.drop d1.length with
    | '.' :: r1 =>
        let d2 := r1.takeWhile isDigitChar
        if d2.isEmpty then none
        else
          let r2 := r1.drop d2.length
          let star := dotDigitRuns r2.length r2
          let r3 := r2.drop star.1
          let ws := r3.takeWhile isWSChar
          if ws.isEmpty then none
          else some (d1.length + 1 + d2.length + star.1 + ws.length)
    | _ => none

/-- `re.findall` scan for the clause-number pattern
`\b\d+\.\d+(?:\.\d+)*\s+`: left-to-right, non-overlapping, continuing after
each match; `prevWord` tracks whether the previous character was a word
character (for `\b`). -/
def countClauseGo : Nat → Bool → List Char → Nat
  | 0, _, _ => 0
  | _ + 1, _, [] => 0
  | fuel + 1, prevWord, c :: rest =>
      if !prevWord && isDigitChar c then
        match clauseMatchLen (c :: rest) with
        | some n => 1 + countClauseGo fuel false ((c :: rest).drop n)
        | none => countClauseGo fuel (isWordChar c) rest
      else countClauseGo fuel (isWordChar c) rest

/-- `len(re.findall(r'\b\d+\.\d+(?:\.\d+)*\s+', s))`. -/
def countClauseMatches (s : List Char) : Nat :=
  countClauseGo (s.length + 1) false s

/-- The six alternatives of `(Article|Section|ARTICLE|SECTION|Clause|CLAUSE)`
in source order. -/
def sectionKeywords : List (List Char) :=
  ["Article".data, "Section".data, "ARTICLE".data, "SECTION".data,
   "Clause".data, "CLAUSE".data]

/-- Attempted match of `(Article|Section|ARTICLE|SECTION|Clause|CLAUSE)\s+\d+`
at the head of `l` (the caller checks the leading `\b`).  The alternatives
have pairwise distinct second characters, so at most one of them can be a
prefix of `l` and the alternation is deterministic. -/
def sectionMatchLen (l : List Char) : Option Nat :=
  match sectionKeywords.find? (fun k => k.isPrefixOf l) with
  | none => none
  | some kw =>
      let r1 := l.drop kw.length
      let ws := r1.takeWhile isWSChar
      if ws.isEmpty then none
      else
        let r2 := r1.drop ws.length
        let ds := r2.takeWhile isDigitChar
        if ds.isEmpty then none
        else some (kw.length + ws.length + ds.length)

/-- `re.findall` scan for the section-header pattern
`\b(Article|Section|ARTICLE|SECTION|Clause|CLAUSE)\s+\d+`. -/
def countSectionGo : Nat → Bool → List Char → Nat
  | 0, _, _ => 0
  | _ + 1, _, [] => 0
  | fuel + 1, prevWord, c :: rest =>
      if !prevWord then
        match sectionMatchLen (c :: rest) with
        | some n => 1 + countSectionGo fuel true ((c :: rest).drop n)
        | none => countSectionGo fuel (isWordChar c) rest
      else countSectionGo fuel (isWordChar c) rest

/-- `len(re.findall(r'\b(Article|Section|ARTICLE|SECTION|Clause|CLAUSE)\s+\d+', s))`. -/
def countSectionMatches (s : List Char) : Nat :=
  countSectionGo (s.length + 1) false s

/-- Number of distinct legal terms occurring in the (already lower-cased)
sample: `sum(1 for term in legal_terms if term in text_lower)`. -/
def countDistinctTerms (textLower : List Char) : Nat :=
  (legalTerms.filter (fun t => containsSeq t textLower)).length

/-- `IngestionWorker._detect_legal_document`, with the source's early-return
rule cascade. -/
def detectLegalDocument (text filename : List Char) : Bool :=
  if filenameHasLegalKeyword filename then true
  else
    let sample := text.take 5000
    if 3 ≤ countClauseMatches sample || 2 ≤ countSectionMatches sample then true
    else
      let textLower := sample.map Char.toLower
      if 5 ≤ countDistinctTerms textLower then true
      else false

/-! Spec-variant patterns, used only to state what claims C2/C3 literally
assert (pattern without `\b`, single `\s`, case-insensitive keywords, and
total occurrence counting). -/

/-- Match of the spec's clause pattern `\d+\.\d+(\.\d+)*\s` (no word
boundary, a single whitespace character) at the head of `l`. -/
def clauseSpecMatchLen (l : List Char) : Option Nat :=
  let d1 := l.takeWhile isDigitChar
  if d1.isEmpty then none
  else
    match l.drop d1.length with
    | '.' :: r1 =>
        let d2 := r1.takeWhile isDigitChar
        if d2.isEmpty then none
        else
          let r2 := r1.drop d2.length
          let star := dotDigitRuns r2.length r2
          match r2.drop star.1 with
          | w :: _ => if isWSChar w then some (d1.length + 1 + d2.length + star.1 + 1) else none
          | [] => none
    | _ => none

/-- `re.findall` count for the spec's clause pattern `\d+\.\d+(\.\d+)*\s`. -/
def countClauseSpecGo : Nat → List Char → Nat
  | 0, _ => 0
  | _ + 1, [] => 0
  | fuel + 1, c :: rest =>
      match clauseSpecMatchLen (c :: rest) with
      | some n => 1 + countClauseSpecGo fuel ((c :: rest).drop n)
      | none => countClauseSpecGo fuel rest

/-- Matches of `\d+\.\d+(\.\d+)*\s` (the pattern exactly as the claim
writes it). -/
def countClauseSpecMatches (s : List Char) : Nat :=
  countClauseSpecGo (s.length + 1) s

/-- Case-insensitive match of `(Article|Section|Clause)\s+\d+` at the head
of `l`, as the claim's rule 2 describes it. -/
def sectionSpecMatchLen (l : List Char) : Option Nat :=
  let low := ["article".data, "section".data, "clause".data]
  match low.find? (fun k => k.isPrefixOf ((l.take k.length).map Char.toLower)) with
  | none => none
  | some kw =>
      let r1 := l.drop kw.length
      let ws := r1.takeWhile isWSChar
      if ws.isEmpty then none
      else
        let r2 := r1.drop ws.length
        let ds := r2.takeWhile isDigitChar
        if ds.isEmpty then none
        else some (kw.length + ws.length + ds.length)

/-- `re.findall` count for the case-insensitive spec section pattern. -/
def countSectionSpecGo : Nat → List Char → Nat
  | 0, _ => 0
  | _ + 1, [] => 0
  | fuel + 1, c :: rest =>
      match sectionSpecMatchLen (c :: rest) with
      | some n => 1 + countSectionSpecGo fuel ((c :: rest).drop n)
      | none => countSectionSpecGo fuel rest

/-- Matches of the claim's case-insensitive `(Article|Section|Clause)\s+\d+`. -/
def countSectionSpecMatches (s : List Char) : Nat :=
  countSectionSpecGo (s.length + 1) s

/-- Total (not distinct) occurrences of the legal-term vocabulary, the
reading of "total number of substring occurrences" in claim C3. -/
def totalTermOccurrences (textLower : List Char) : Nat :=
  (legalTerms.map (fun t => countOccur t textLower)).sum

/-! ## Pipeline orchestrator (`IngestionWorker.process_job`)

`process_job` runs fifteen awaited stages inside one `try` block; any stage
may raise (external collaborators: status store, pub/sub, storage, PDF
extraction, chunking, embeddings, vector store), and the emptiness check on
the extracted text raises a fixed `ValueError`.  The `except` block issues
one Failed status write carrying the exception's message and publishes one
`failed/0` event; the model assumes the document row exists and that the
recovery writes themselves succeed. -/

/-- `DocumentStatus` from `backend/models/document.py`. -/
inductive DStatus where
  | queued
  | processing
  | completed
  | failed
  deriving DecidableEq, Repr

/-- One awaited stage of `process_job`: the error it raises (if any), the
status write it performs (status, error_message), and the progress event it
publishes (status string, progress percentage). -/
structure Stage where
  err : Option String
  write : Option (DStatus × Option String)
  event : Option (String × Nat)

/-- Environment of one `process_job` run: for every stage index, whether the
awaited call raises (and with which message), and whether the extracted
text is empty after stripping. -/
structure PipelineEnv where
  errAt : Nat → Option String
  textEmpty : Bool

/-- The message of `ValueError("PDF contains no extractable text")`. -/
def emptyTextMsg : String := "PDF contains no extractable text"

/-- The fifteen stages of the `try` block of `process_job`, in source
order: Processing status write, `processing/5` publish, MinIO download,
`processing/15` publish, text extraction, empty-text check,
`processing/30` publish, chunking, `processing/50` publish, embedding,
`processing/70` publish, collection check + vector insert, `processing/90`
publish, Completed status write, `completed/100` publish. -/
def stageTable (env : PipelineEnv) : List Stage :=
  [⟨env.errAt 0, some (.processing, none), none⟩,
   ⟨env.errAt 1, none, some ("processing", 5)⟩,
   ⟨env.errAt 2, none, none⟩,
   ⟨env.errAt 3, none, some ("processing", 15)⟩,
   ⟨env.errAt 4, none, none⟩,
   ⟨if env.textEmpty then some emptyTextMsg else none, none, none⟩,
   ⟨env.errAt 6, none, some ("processing", 30)⟩,
   ⟨env.errAt 7, none, none⟩,
   ⟨env.errAt 8, none, some ("processing", 50)⟩,
   ⟨env.errAt 9, none, none⟩,
   ⟨env.errAt 10, none, some ("processing", 70)⟩,
   ⟨env.errAt 11, none, none⟩,
   ⟨env.errAt 12, none, some ("processing", 90)⟩,
   ⟨env.errAt 13, some (.completed, none), none⟩,
   ⟨env.errAt 14, none, some ("completed", 100)⟩]

/-- Run the stages of the `try` block in order: stop at the first raising
stage, collecting the status writes and progress events of the stages that
ran, and report the raised message (if any). -/
def runStages : List Stage → List (DStatus × Option String) × List (String × Nat) × Option String
  | [] => ([], [], none)
  | s :: rest =>
      match s.err with
      | some m => ([], [], some m)
      | none =>
          let r := runStages rest
          (s.write.toList ++ r.1, s.event.toList ++ r.2.1, r.2.2)

/-- `IngestionWorker.process_job`: the `try` block followed, on a raise, by
the `except` block's Failed write (message stored verbatim) and single
`failed/0` publish.  Returns (status writes, published events). -/
def processJob (env : PipelineEnv) : List (DStatus × Option String) × List (String × Nat) :=
  match runStages (stageTable env) with
  | (ws, evs, none) => (ws, evs)
  | (ws, evs, some m) => (ws ++ [(.failed, some m)], evs ++ [("failed", 0)])

/-- The sequence of document statuses written during one job. -/
def statusTrace (env : PipelineEnv) : List DStatus :=
  (processJob env).1.map Prod.fst

/-- Index and message of the first raising stage. -/
def firstErr : List Stage → Option (Nat × String)
  | [] => none
  | s :: rest =>
      match s.err with
      | some m => some (0, m)
      | none => (firstErr rest).map (fun p => (p.1 + 1, p.2))

/-- Status writes of a stage list (what runs when nothing raises). -/
def stageWrites (t : List Stage) : List (DStatus × Option String) :=
  t.filterMap Stage.write

/-- Progress events of a stage list (what runs when nothing raises). -/
def stageEvents (t : List Stage) : List (String × Nat) :=
  t.filterMap Stage.event

/-! ## Document status store helpers

`_update_document_status`, `_update_document_completed` and
`_update_document_failed` each select the document row by id and, when the
row is absent (`scalar_one_or_none` returning `None`), fall through without
writing anything. -/

/-- The mutable columns of a `Document` row touched by the worker. -/
structure DocumentRow where
  status : DStatus
  error_message : Option String
  num_pages : Option Nat
  num_chunks : Option Nat
  updated_at : Nat
  processed_at : Option Nat
  deriving DecidableEq

/-- The document table, keyed by document id. -/
def DocDb : Type := String → Option DocumentRow

/-- `IngestionWorker._update_document_status`. -/
def updateDocumentStatus (db : DocDb) (documentId : String) (st : DStatus)
    (now : Nat) : DocDb :=
  match db documentId with
  | none => db
  | some d => fun id =>
      if id = documentId then some { d with status := st, updated_at := now }
      else db id

/-- `IngestionWorker._update_document_completed`. -/
def updateDocumentCompleted (db : DocDb) (documentId : String)
    (numPages numChunks : Nat) (now : Nat) : DocDb :=
  match db documentId with
  | none => db
  | some d => fun id =>
      if id = documentId then
        some { d with status := .completed, num_pages := some numPages,
                      num_chunks := some numChunks, updated_at := now,
                      processed_at := some now }
      else db id

/-- `IngestionWorker._update_document_failed`. -/
def updateDocumentFailed (db : DocDb) (documentId : String)
    (errorMessage : String) (now : Nat) : DocDb :=
  match db documentId with
  | none => db
  | some d => fun id =>
      if id = documentId then
        some { d with status := .failed, error_message := some errorMessage,
                      updated_at := now }
      else db id

/-! ## Generic segmenter (`backend/services/chunking_service.py`) -/

/-- `TextChunk` from the source: stripped chunk text plus the cumulative
character offsets computed by `chunk_text`. -/
structure TextChunk where
  text : List Char
  chunk_index : Nat
  start_char : Int
  end_char : Int
  deriving DecidableEq

/-- `str.strip()`-style trailing part: drop trailing whitespace. -/
def dropTrailWS (l : List Char) : List Char :=
  (l.reverse.dropWhile isWSChar).reverse

/-- Python `str.strip()` (ASCII whitespace fragment). -/
def stripChars (l : List Char) : List Char :=
  dropTrailWS (l.dropWhile isWSChar)

/-- Modelled from the spec: the source delegates raw splitting to
langchain's `RecursiveCharacterTextSplitter`, which is an external library
and not part of this repository.  Spec §2 describes the Generic Segmenter
as producing "an ordered sequence of fixed-window chunks with overlap" and
§4.4 states that "each chunk after the first begins `overlap` characters
before the end of the previous chunk's source span"; accordingly the raw
split is modelled as windows of `size` characters stepped by
`step = size - overlap`, the last window running to the end of the text. -/
def splitWindows (size step : Nat) : Nat → List Char → List (List Char)
  | 0, l => [l]
  | fuel + 1, l =>
      if size < l.length ∧ 0 < step then
        l.take size :: splitWindows size step fuel (l.drop step)
      else [l]

/-- The offset bookkeeping of `ChunkingService.chunk_text`: each chunk
records `(start, start + len(raw))` and the running offset advances by
`len(raw) - overlap`; the stored text is `raw.strip()`. -/
def buildChunks (overlap : Nat) : Nat → Int → List (List Char) → List TextChunk
  | _, _, [] => []
  | idx, off, r :: rs =>
      ⟨stripChars r, idx, off, off + r.length⟩ ::
        buildChunks overlap (idx + 1) (off + r.length - overlap) rs

/-- `ChunkingService.chunk_text` over the spec-modelled raw splitter. -/
def chunkText (size overlap : Nat) (text : List Char) : List TextChunk :=
  buildChunks overlap 0 0 (splitWindows size (size - overlap) (text.length + 1) text)

/-- The slice `text[a:b]` (for `0 ≤ a ≤ b`). -/
def sliceAt (text : List Char) (a b : Int) : List Char :=
  (text.take b.toNat).drop a.toNat

/-- Concatenation of the chunks' non-overlapping spans: the first chunk's
whole span, then every later chunk's span with its first `overlap`
characters removed. -/
def spansConcat (text : List Char) (overlap : Nat) : List TextChunk → List Char
  | [] => []
  | c :: rest =>
      sliceAt text c.start_char c.end_char ++
        (rest.map (fun d => sliceAt text (d.start_char + overlap) d.end_char)).flatten

/-- `ChunkingService.estimate_chunk_count` (Python integer arithmetic:
`//` is floor division). -/
def estimateChunkCount (chunkSize chunkOverlap textLength : Int) : Int :=
  let effectiveChunkSize := chunkSize - chunkOverlap
  if effectiveChunkSize ≤ 0 then textLength
  else max 1 ((textLength + effectiveChunkSize - 1).fdiv effectiveChunkSize)

/-! ## Clause-aware segmenter (`backend/services/clause_chunking_service.py`) -/

/-- The values of the `chunk_type` string field of `ClauseChunk`. -/
inductive ChunkForm where
  | section_header
  | clause
  | sub_clause
  | paragraph
  | combined
  deriving DecidableEq, Repr

/-- `ClauseChunk` from the source. -/
structure ClauseChunk where
  text : List Char
  clause_number : List Char
  section_number : List Char
  section_title : List Char
  chunk_type : ChunkForm
  chunk_index : Nat
  hierarchy_level : Nat
  deriving DecidableEq, Repr

/-- Decimal digits of a natural number (`str(n)` of Python). -/
def natCharsGo : Nat → Nat → List Char → List Char
  | 0, _, acc => acc
  | fuel + 1, n, acc =>
      if n = 0 then acc
      else natCharsGo fuel (n / 10) (Char.ofNat (48 + n % 10) :: acc)

/-- `str(n)` for a natural number. -/
def natChars (n : Nat) : List Char :=
  if n = 0 then ['0'] else natCharsGo (n + 1) n []

/-- `re.sub(r'\n{3,}', '\n\n', text)`: every maximal newline run of length
at least three becomes exactly two newlines (`run` counts the newlines seen
in the current run). -/
def collapseNLGo : Nat → List Char → List Char
  | _, [] => []
  | run, c :: rest =>
      if c = '\n' then
        if run < 2 then '\n' :: collapseNLGo (run + 1) rest
        else collapseNLGo (run + 1) rest
      else c :: collapseNLGo 0 rest

/-- `re.sub(r' +', ' ', text)`: every run of spaces becomes one space. -/
def collapseSpacesGo : Bool → List Char → List Char
  | _, [] => []
  | prevSpace, c :: rest =>
      if c = ' ' then
        if prevSpace then collapseSpacesGo true rest
        else ' ' :: collapseSpacesGo true rest
      else c :: collapseSpacesGo false rest

/-- `text.split('\n\n')`: split at each non-overlapping, leftmost
occurrence of two consecutive newlines. -/
def splitDoubleNLGo : List Char → List Char → List (List Char)
  | acc, [] => [acc.reverse]
  | acc, '\n' :: '\n' :: rest => acc.reverse :: splitDoubleNLGo [] rest
  | acc, c :: rest => splitDoubleNLGo (c :: acc) rest

/-- The paragraph preprocessing of `chunk_legal_document`:
collapse newline runs, collapse space runs, split on blank lines, strip,
drop empty paragraphs. -/
def preprocessParagraphs (text : List Char) : List (List Char) :=
  ((splitDoubleNLGo [] (collapseSpacesGo false (collapseNLGo 0 text))).map
      stripChars).filter (fun p => !p.isEmpty)

/-- The six alternatives of `(Article|Section|ARTICLE|SECTION|Part|PART)`
of `SECTION_HEADER_PATTERN`, in source order (pairwise distinct at the
second character, so the alternation is deterministic). -/
def sectionHeaderKeywords : List (List Char) :=
  ["Article".data, "Section".data, "ARTICLE".data, "SECTION".data,
   "Part".data, "PART".data]

/-- `SECTION_HEADER_PATTERN.match(para)` for
`^(Article|Section|ARTICLE|SECTION|Part|PART)\s+(\d+\.?\d*):?\s*(.*)$`
(`re.MULTILINE`; `match` anchors at position 0 and need not consume the
whole paragraph, so only the first line matters for group 3).  Returns
`(group 1, group 2, group 3)` on success. -/
def matchSectionHeader (para : List Char) :
    Option (List Char × List Char × List Char) :=
  match sectionHeaderKeywords.find? (fun k => k.isPrefixOf para) with
  | none => none
  | some kw =>
      let rest0 := para.drop kw.length
      let ws1 := rest0.takeWhile isWSChar
      if ws1.isEmpty then none
      else
        let r1 := rest0.drop ws1.length
        let d1 := r1.takeWhile isDigitChar
        if d1.isEmpty then none
        else
          let r2 := r1.drop d1.length
          let dotted := match r2 with
            | '.' :: t => (d1 ++ ['.'], t)
            | _ => (d1, r2)
          let d2 := dotted.2.takeWhile isDigitChar
          let number := dotted.1 ++ d2
          let r4 := dotted.2.drop d2.length
          let r5 := match r4 with
            | ':' :: t => t
            | _ => r4
          let r6 := r5.drop (r5.takeWhile isWSChar).length
          some (kw, number, r6.takeWhile (fun c => c != '\n'))

/-- The trailing `\s+(.+)$` of the clause patterns (`re.MULTILINE`, `.` not
matching newlines): at least one whitespace character, and then at least
one non-newline character — which, when the string ends inside the
whitespace run, the engine finds by giving back part of the run. -/
def wsThenContent (r : List Char) : Bool :=
  let ws := r.takeWhile isWSChar
  if ws.isEmpty then false
  else
    match r.drop ws.length with
    | _ :: _ => true
    | [] => (ws.drop 1).any (fun c => c != '\n')

/-- `CLAUSE_NUMBER_PATTERN.match(para)` for `^(\d+(?:\.\d+)+)\.?\s+(.+)$`:
returns group 1 (the dotted clause number) on success. -/
def matchClausePara (para : List Char) : Option (List Char) :=
  let d1 := para.takeWhile isDigitChar
  if d1.isEmpty then none
  else
    match para.drop d1.length with
    | '.' :: r1 =>
        let d2 := r1.takeWhile isDigitChar
        if d2.isEmpty then none
        else
          let r2 := r1.drop d2.length
          let star := dotDigitRuns r2.length r2
          let r3 := r2.drop star.1
          let r4 := match r3 with
            | '.' :: t => t
            | _ => r3
          if wsThenContent r4 then some (d1 ++ '.' :: (d2 ++ r2.take star.1))
          else none
    | _ => none

/-- `LETTERED_CLAUSE_PATTERN.match(para)` for
`^\(([a-z]|[ivxlcdm]+)\)\s+(.+)$` with `IGNORECASE`: returns group 1.  The
first alternative (a single letter) and the roman-run alternative agree
whenever both apply, and a roman run can only be followed by `)` at its
maximal extent, so the alternation is deterministic. -/
def matchLetteredPara (para : List Char) : Option (List Char) :=
  match para with
  | '(' :: rest =>
      match rest with
      | c :: ')' :: r2 =>
          if c.isAlpha then (if wsThenContent r2 then some [c] else none)
          else none
      | _ =>
          let rr := rest.takeWhile isRomanChar
          if rr.isEmpty then none
          else
            match rest.drop rr.length with
            | ')' :: r2 => if wsThenContent r2 then some rr else none
            | _ => none
  | _ => none

/-- The paragraph loop of `chunk_legal_document`: pattern rules applied in
order (section header, dotted clause, lettered clause, plain paragraph),
threading the mutable context `current_section_number` /
`current_section_title` and the running chunk count; a plain paragraph is
emitted only if it is longer than `min_chunk_size` or some chunk was
already emitted.  Returns the emitted chunks and the final context. -/
def emitParas (minSize : Nat) :
    List (List Char) → Nat → List Char → List Char →
      List ClauseChunk × (List Char × List Char)
  | [], _, num, title => ([], (num, title))
  | para :: rest, idx, num, title =>
      match matchSectionHeader para with
      | some (kw, n, rawTitle) =>
          let st := stripChars rawTitle
          let ttl := if st.isEmpty then kw ++ ' ' :: n else st
          let r := emitParas minSize rest (idx + 1) n ttl
          (⟨para, n, n, ttl, .section_header, idx, 0⟩ :: r.1, r.2)
      | none =>
      match matchClausePara para with
      | some g1 =>
          let lvl := g1.count '.'
          let form := if 2 ≤ lvl then ChunkForm.sub_clause else ChunkForm.clause
          let r := emitParas minSize rest (idx + 1) num title
          (⟨para, g1, num, title, form, idx, lvl⟩ :: r.1, r.2)
      | none =>
      match matchLetteredPara para with
      | some letter =>
          let r := emitParas minSize rest (idx + 1) num title
          (⟨para, num ++ '.' :: letter, num, title, .sub_clause, idx, 2⟩ :: r.1, r.2)
      | none =>
          if minSize < para.length ∨ idx ≠ 0 then
            let r := emitParas minSize rest (idx + 1) num title
            (⟨para, num ++ '.' :: 'p' :: natChars idx, num, title, .paragraph, idx, 1⟩
              :: r.1, r.2)
          else emitParas minSize rest idx num title

/-- `wsGo`: inside the whitespace run of the sentence-boundary separator
`(?<=[.!?])\s+(?=[A-Z])`, skip whitespace and test the lookahead `[A-Z]`. -/
def wsGo : List Char → Bool
  | [] => false
  | c :: r => if isWSChar c then wsGo r else isUpperChar c

/-- Whether a sentence boundary starts right here: at least one whitespace
character whose maximal run is followed by an uppercase letter. -/
def boundAhead : List Char → Bool
  | [] => false
  | c :: r => isWSChar c && wsGo r

/-- First sentence-boundary cut of `re.split(r'(?<=[.!?])\s+(?=[A-Z])', t)`:
returns (piece before the separator, remainder after the separator). -/
def findCut : List Char → Option (List Char × List Char)
  | [] => none
  | c :: rest =>
      if isSentencePunct c && boundAhead rest then
        some ([c], rest.drop (rest.takeWhile isWSChar).length)
      else
        match findCut rest with
        | some (pre, rem) => some (c :: pre, rem)
        | none => none

/-- `re.split(r'(?<=[.!?])\s+(?=[A-Z])', t)`, by repeated first cuts. -/
def splitSentencesGo : Nat → List Char → List (List Char)
  | 0, l => [l]
  | fuel + 1, l =>
      match findCut l with
      | none => [l]
      | some (pre, rem) => pre :: splitSentencesGo fuel rem

/-- The `sentences` of `_split_large_chunk`. -/
def splitSentences (l : List Char) : List (List Char) :=
  splitSentencesGo l.length l

/-- The sentence-accumulation loop of `_split_large_chunk`: grow
`current_text` while `len(current_text) + len(sentence) < max_size`,
otherwise flush `current_text.strip()` (if non-empty) and restart from the
sentence; finally flush the remainder. -/
def buildPieces (maxS : Nat) : List (List Char) → List Char → List (List Char)
  | [], cur =>
      if (stripChars cur).isEmpty then [] else [stripChars cur]
  | s :: ss, cur =>
      if cur.length + s.length < maxS then buildPieces maxS ss (cur ++ s ++ [' '])
      else
        (if (stripChars cur).isEmpty then [] else [stripChars cur]) ++
          buildPieces maxS ss (s ++ [' '])

/-- Wrap the flushed pieces as sub-chunks: parent metadata, clause number
suffixed with the 1-based piece ordinal, `hierarchy_level + 1`. -/
def attachPieces (c : ClauseChunk) : Nat → List (List Char) → List ClauseChunk
  | _, [] => []
  | k, p :: ps =>
      ⟨p, c.clause_number ++ '.' :: natChars k, c.section_number,
        c.section_title, c.chunk_type, c.chunk_index, c.hierarchy_level + 1⟩ ::
        attachPieces c (k + 1) ps

/-- `ClauseChunkingService._split_large_chunk`. -/
def splitLargeChunk (c : ClauseChunk) (maxS : Nat) : List ClauseChunk :=
  let pieces := buildPieces maxS (splitSentences c.text) []
  if pieces.isEmpty then [c] else attachPieces c 1 pieces

/-- The `can_combine` condition of `_optimize_chunk_sizes`: same section,
combined text lengths below `max_size`, neither chunk a section header. -/
def canCombine (a b : ClauseChunk) (maxS : Nat) : Bool :=
  decide (a.section_number = b.section_number) &&
    decide (a.text.length + b.text.length < maxS) &&
    decide (a.chunk_type ≠ ChunkForm.section_header) &&
    decide (b.chunk_type ≠ ChunkForm.section_header)

/-- The merged chunk of `_optimize_chunk_sizes`: texts joined by a blank
line, first chunk's clause number and section context, `combined` type,
`chunk_index` = number of chunks already emitted (overwritten by the final
reindexing), minimum hierarchy level. -/
def mkCombined (a b : ClauseChunk) (idx : Nat) : ClauseChunk :=
  ⟨a.text ++ '\n' :: '\n' :: b.text, a.clause_number, a.section_number,
    a.section_title, .combined, idx, min a.hierarchy_level b.hierarchy_level⟩

/-- The `while` loop of `_optimize_chunk_sizes`: oversized chunks are
split, an undersized chunk is merged with its successor when `can_combine`
holds (consuming both), otherwise the chunk is passed through; `acc` is the
number of chunks already emitted (`len(optimized)`). -/
def optimizeChunkSizesGo (minS maxS : Nat) : Nat → Nat → List ClauseChunk → List ClauseChunk
  | 0, _, l => l
  | _ + 1, _, [] => []
  | fuel + 1, acc, c :: rest =>
      if maxS < c.text.length then
        let sp := splitLargeChunk c maxS
        sp ++ optimizeChunkSizesGo minS maxS fuel (acc + sp.length) rest
      else
        match rest with
        | [] => [c]
        | n :: rest2 =>
            if c.text.length < minS && canCombine c n maxS then
              mkCombined c n acc :: optimizeChunkSizesGo minS maxS fuel (acc + 1) rest2
            else c :: optimizeChunkSizesGo minS maxS fuel (acc + 1) (n :: rest2)

/-- The final reindexing of `_optimize_chunk_sizes`. -/
def reindexFrom : Nat → List ClauseChunk → List ClauseChunk
  | _, [] => []
  | k, c :: rest => { c with chunk_index := k } :: reindexFrom (k + 1) rest

/-- `ClauseChunkingService._optimize_chunk_sizes` (loop plus reindexing). -/
def optimizeChunkSizes (minS maxS : Nat) (l : List ClauseChunk) : List ClauseChunk :=
  reindexFrom 0 (optimizeChunkSizesGo minS maxS l.length 0 l)

/-- `ClauseChunkingService.chunk_legal_document`.  The mutable instance
context (`current_section_number`, `current_section_title`) is threaded
explicitly: the function takes the context the service holds when the call
starts and returns the chunks together with the context the service holds
afterwards. -/
def chunkLegalDocument (num title text : List Char) (minS maxS : Nat) :
    List ClauseChunk × (List Char × List Char) :=
  let r := emitParas minS (preprocessParagraphs text) 0 num title
  (optimizeChunkSizes minS maxS r.1, r.2)

/-- `current_section_number` as set by `ClauseChunkingService.__init__`. -/
def initialSectionNumber : List Char := "0".data

/-- `current_section_title` as set by `ClauseChunkingService.__init__`. -/
def initialSectionTitle : List Char := "Preamble".data

/-- The section-inheritance invariant of a chunk sequence: every chunk that
is not itself a section header carries the section number/title of the most
recent section header before it (or the starting context if none precedes
it); a header switches the context to its own section. -/
def okListB : List Char → List Char → List ClauseChunk → Bool
  | _, _, [] => true
  | num, title, c :: l =>
      if c.chunk_type = ChunkForm.section_header then
        okListB c.section_number c.section_title l
      else
        decide (c.section_number = num) && decide (c.section_title = title) &&
          okListB num title l

/-! ## Theorems -/

/-- C8 counterexample: with `chunk_size = chunk_overlap = 50` and
`text_length = 10`, `estimate_chunk_count` returns 10, not 1 as the claim
states. -/
theorem c8_degenerate_counterexample :
    estimateChunkCount 50 50 10 = 10 ∧ estimateChunkCount 50 50 10 ≠ 1 := by
  decide

/-- C8 (amended): `estimate_chunk_count` never divides by a non-positive
effective size — when `chunk_overlap ≥ chunk_size` the guard returns
`text_length` itself (not 1); otherwise the result is the positive ceiling
`max 1 ⌈text_length / effective⌉`, characterized here by its bounds. -/
theorem c8_estimate_characterization (chunkSize chunkOverlap textLength : Int) :
    (chunkSize - chunkOverlap ≤ 0 →
      estimateChunkCount chunkSize chunkOverlap textLength = textLength)
    ∧ (0 < chunkSize - chunkOverlap → 0 < textLength →
        1 ≤ estimateChunkCount chunkSize chunkOverlap textLength
        ∧ textLength ≤
            estimateChunkCount chunkSize chunkOverlap textLength * (chunkSize - chunkOverlap)
        ∧ (estimateChunkCount chunkSize chunkOverlap textLength - 1) * (chunkSize - chunkOverlap)
            < textLength) := by
  constructor
  · intro h
    show (if chunkSize - chunkOverlap ≤ 0 then textLength
      else max 1 ((textLength + (chunkSize - chunkOverlap) - 1).fdiv
        (chunkSize - chunkOverlap))) = textLength
    rw [if_pos h]
  · intro heff htl
    have hne : chunkSize - chunkOverlap ≠ 0 := ne_of_gt heff
    simp only [estimateChunkCount, if_neg (not_le.mpr heff)]
    set eff := chunkSize - chunkOverlap with heffdef
    set a := textLength + eff - 1 with hadef
    have hfd : a.fdiv eff = a / eff := Int.fdiv_eq_ediv a (le_of_lt heff)
    have hdm := Int.ediv_add_emod a eff
    have hm0 : 0 ≤ a % eff := Int.emod_nonneg a hne
    have hm1 : a % eff < eff := Int.emod_lt_of_pos a heff
    rw [hfd]
    have hq1 : 1 ≤ a / eff := by nlinarith [hdm, hm0, hm1]
    rw [max_eq_right hq1]
    refine ⟨hq1, ?_, ?_⟩ <;> nlinarith [hdm, hm0, hm1]

/-- Witness for `c8_estimate_characterization` at concrete inputs. -/
theorem c8_estimate_characterization_witness :
    estimateChunkCount 50 50 10 = 10
    ∧ (1 ≤ estimateChunkCount 500 50 1000
        ∧ 1000 ≤ estimateChunkCount 500 50 1000 * 450
        ∧ (estimateChunkCount 500 50 1000 - 1) * 450 < 1000) :=
  ⟨(c8_estimate_characterization 50 50 10).1 (by decide),
   (c8_estimate_characterization 500 50 1000).2 (by decide) (by decide)⟩

/-- C10: when no document row exists for the given id, each of the three
status-update helpers leaves the whole table unchanged (the missing-id case
is a silent no-op). -/
theorem c10_missing_document_noop (db : DocDb) (documentId : String)
    (h : db documentId = none) :
    (∀ st now, updateDocumentStatus db documentId st now = db)
    ∧ (∀ numPages numChunks now,
        updateDocumentCompleted db documentId numPages numChunks now = db)
    ∧ (∀ msg now, updateDocumentFailed db documentId msg now = db) := by
  refine ⟨?_, ?_, ?_⟩ <;> intros <;>
    simp [updateDocumentStatus, updateDocumentCompleted, updateDocumentFailed, h]

/-- Witness for `c10_missing_document_noop` on the empty table. -/
theorem c10_missing_document_noop_witness :
    ((fun _ : String => (none : Option DocumentRow)) "doc-1" = none)
    ∧ updateDocumentStatus (fun _ => none) "doc-1" DStatus.processing 7 = (fun _ => none)
    ∧ updateDocumentCompleted (fun _ => none) "doc-1" 3 4 7 = (fun _ => none)
    ∧ updateDocumentFailed (fun _ => none) "doc-1" "boom" 7 = (fun _ => none) := by
  have h := c10_missing_document_noop (fun _ => none) "doc-1" rfl
  exact ⟨rfl, h.1 DStatus.processing 7, h.2.1 3 4 7, h.2.2 "boom" 7⟩

/-- C2 counterexample: the claim's patterns differ from the code's.  The
code's clause pattern carries a leading `\b` — `"x1.2 x1.2 x1.2 "` has three
matches of the claim's pattern `\d+\.\d+(\.\d+)*\s` yet the classifier
returns false — and the code's section alternation is not case-insensitive —
`"article 1 article 2"` has two matches of the claim's case-insensitive
`(Article|Section|Clause)\s+\d+` yet the classifier returns false. -/
theorem c2_spec_pattern_counterexample :
    (3 ≤ countClauseSpecMatches ("x1.2 x1.2 x1.2 ".data.take 5000)
      ∧ detectLegalDocument "x1.2 x1.2 x1.2 ".data "doc.pdf".data = false)
    ∧ (2 ≤ countSectionSpecMatches ("article 1 article 2".data.take 5000)
      ∧ detectLegalDocument "article 1 article 2".data "doc.pdf".data = false) := by
  decide

/-- C2 (amended): the classifier evaluates its rules in order with first
match winning — true iff the lower-cased filename contains a legal keyword,
or the first 5000 characters contain at least 3 matches of
`\b\d+\.\d+(?:\.\d+)*\s+` or at least 2 matches of
`\b(Article|Section|ARTICLE|SECTION|Clause|CLAUSE)\s+\d+` (exact
capitalizations only), or at least 5 distinct legal terms.  In particular
filename "Service_Agreement.pdf" yields true for every body, a text with 4
word-boundary occurrences of "3.2 "-style patterns and a non-legal filename
yields true via rule 2, and plain prose matching no rule yields false. -/
theorem c2_classifier_rules :
    (∀ text filename : List Char,
      detectLegalDocument text filename = true ↔
        (filenameHasLegalKeyword filename = true
          ∨ 3 ≤ countClauseMatches (text.take 5000)
          ∨ 2 ≤ countSectionMatches (text.take 5000)
          ∨ 5 ≤ countDistinctTerms ((text.take 5000).map Char.toLower)))
    ∧ (∀ body : List Char,
        detectLegalDocument body "Service_Agreement.pdf".data = true)
    ∧ (filenameHasLegalKeyword "doc.pdf".data = false
        ∧ 3 ≤ countClauseMatches ("3.2 a 4.5 b 6.7 c 8.9 d".data.take 5000)
        ∧ detectLegalDocument "3.2 a 4.5 b 6.7 c 8.9 d".data "doc.pdf".data = true)
    ∧ detectLegalDocument "The quick brown fox jumps over the lazy dog.".data
        "doc.pdf".data = false := by
  refine ⟨?_, ?_, by decide, by decide⟩
  · intro text filename
    unfold detectLegalDocument
    split_ifs with h1 h2 h3 <;> simp_all [or_assoc]
  · intro body
    unfold detectLegalDocument
    simp [show filenameHasLegalKeyword "Service_Agreement.pdf".data = true from by decide]

/-- C3 counterexample: a text with five substring occurrences of a single
legal term has a total occurrence count of 5, yet the classifier returns
false — the code counts distinct terms, not total occurrences. -/
theorem c3_total_occurrences_counterexample :
    5 ≤ totalTermOccurrences
        (("whereas whereas whereas whereas whereas".data.take 5000).map Char.toLower)
    ∧ detectLegalDocument "whereas whereas whereas whereas whereas".data
        "doc.pdf".data = false := by
  decide

/-- C3 (amended): when neither the filename rule nor rule 2's thresholds
fire, the classifier returns true iff at least 5 *distinct* terms of the
legal vocabulary occur (each term counted once regardless of how many times
it appears) as case-insensitive substrings of the first 5000 characters. -/
theorem c3_distinct_term_threshold (text filename : List Char)
    (h1 : filenameHasLegalKeyword filename = false)
    (h2 : countClauseMatches (text.take 5000) < 3)
    (h3 : countSectionMatches (text.take 5000) < 2) :
    detectLegalDocument text filename = true ↔
      5 ≤ countDistinctTerms ((text.take 5000).map Char.toLower) := by
  unfold detectLegalDocument
  split_ifs with g1 g2 g3 <;> simp_all [or_assoc] <;> omega

/-- Witness for `c3_distinct_term_threshold`: a text containing exactly the
five distinct terms whereas/hereinafter/indemnify/liability/executed. -/
theorem c3_distinct_term_threshold_witness :
    filenameHasLegalKeyword "doc.pdf".data = false
    ∧ countClauseMatches ("whereas hereinafter indemnify liability executed".data.take 5000) < 3
    ∧ countSectionMatches ("whereas hereinafter indemnify liability executed".data.take 5000) < 2
    ∧ (detectLegalDocument "whereas hereinafter indemnify liability executed".data
          "doc.pdf".data = true ↔
        5 ≤ countDistinctTerms
          (("whereas hereinafter indemnify liability executed".data.take 5000).map
            Char.toLower)) :=
  ⟨by decide, by decide, by decide,
    c3_distinct_term_threshold _ _ (by decide) (by decide) (by decide)⟩

theorem firstErr_lt_length {t : List Stage} {k : Nat} {m : String}
    (h : firstErr t = some (k, m)) : k < t.length := by
  induction t generalizing k m with
  | nil => simp [firstErr] at h
  | cons s rest ih =>
      cases hs : s.err with
      | some m' =>
          simp only [firstErr, hs, Option.some.injEq, Prod.mk.injEq] at h
          obtain ⟨hk, hm⟩ := h
          simp [← hk]
      | none =>
          simp only [firstErr, hs, Option.map_eq_some'] at h
          obtain ⟨⟨k', m'⟩, hp, heq⟩ := h
          simp only [Prod.mk.injEq] at heq
          obtain ⟨hk, hm⟩ := heq
          have := ih hp
          simp [← hk]
          omega

theorem runStages_of_firstErr_none {t : List Stage} (h : firstErr t = none) :
    runStages t = (stageWrites t, stageEvents t, none) := by
  induction t with
  | nil => rfl
  | cons s rest ih =>
      cases hs : s.err with
      | some m => simp [firstErr, hs] at h
      | none =>
          have h' : firstErr rest = none := by
            simpa [firstErr, hs, Option.map_eq_none'] using h
          rw [runStages, hs, ih h']
          cases hw : s.write <;> cases he : s.event <;>
            simp [stageWrites, stageEvents, List.filterMap_cons, hw, he]

theorem runStages_of_firstErr_some {t : List Stage} {k : Nat} {m : String}
    (h : firstErr t = some (k, m)) :
    runStages t = (stageWrites (t.take k), stageEvents (t.take k), some m) := by
  induction t generalizing k m with
  | nil => simp [firstErr] at h
  | cons s rest ih =>
      cases hs : s.err with
      | some m' =>
          simp only [firstErr, hs, Option.some.injEq, Prod.mk.injEq] at h
          obtain ⟨hk, hm⟩ := h
          subst hm
          rw [← hk]
          simp [runStages, hs, stageWrites, stageEvents]
      | none =>
          simp only [firstErr, hs, Option.map_eq_some'] at h
          obtain ⟨⟨k', m'⟩, hp, heq⟩ := h
          simp only [Prod.mk.injEq] at heq
          obtain ⟨hk, hm⟩ := heq
          subst hm
          rw [← hk, runStages, hs, ih hp, List.take_succ_cons]
          cases hw : s.write <;> cases he : s.event <;>
            simp [stageWrites, stageEvents, List.filterMap_cons, hw, he]

theorem stageWrites_take_statuses (env : PipelineEnv) (k : Nat) (hk : k ≤ 15) :
    (stageWrites ((stageTable env).take k)).map Prod.fst =
      if k = 0 then []
      else if k ≤ 13 then [DStatus.processing]
      else [DStatus.processing, DStatus.completed] := by
  interval_cases k <;> rfl

theorem stageEvents_take_no_failed (env : PipelineEnv) (k : Nat) (hk : k ≤ 15) :
    (stageEvents ((stageTable env).take k)).filter (fun e => e.1 == "failed") = [] := by
  interval_cases k <;> rfl

/-- C1 counterexample: when every stage succeeds except the final
completion publish (stage 14 raises, e.g. the progress channel is down),
`process_job` writes Processing, then Completed, then — from the `except`
block — Failed: a status is written after Completed, so Completed is not
terminal and the claimed transition discipline is violated. -/
theorem c1_completed_then_failed_counterexample :
    statusTrace ⟨fun k => if k = 14 then some "redis connection lost" else none, false⟩ =
      [DStatus.processing, DStatus.completed, DStatus.failed] := by
  decide

/-- C1 (amended): the status-write sequence of a job is always one of
`[Processing, Completed]` (success), `[Processing, Failed]` (a stage
between the first publish and the Completed write raised), `[Failed]` (the
initial Processing write itself raised, skipping Processing), or
`[Processing, Completed, Failed]` (a stage after the Completed write — the
completion publish — raised, so Failed follows Completed); the clean
`[Processing, Completed]` sequence occurs exactly when no stage raises. -/
theorem c1_status_trace_shapes (env : PipelineEnv) :
    (statusTrace env = [DStatus.processing, DStatus.completed]
      ∨ statusTrace env = [DStatus.processing, DStatus.failed]
      ∨ statusTrace env = [DStatus.failed]
      ∨ statusTrace env = [DStatus.processing, DStatus.completed, DStatus.failed])
    ∧ (statusTrace env = [DStatus.processing, DStatus.completed]
        ↔ firstErr (stageTable env) = none) := by
  cases h : firstErr (stageTable env) with
  | none =>
      have htr : statusTrace env = [DStatus.processing, DStatus.completed] := by
        unfold statusTrace processJob
        rw [runStages_of_firstErr_none h]
        rfl
      exact ⟨Or.inl htr, by simp [htr]⟩
  | some p =>
      obtain ⟨k, m⟩ := p
      have hk : k < 15 := by simpa [stageTable] using firstErr_lt_length h
      have htr : statusTrace env =
          (stageWrites ((stageTable env).take k)).map Prod.fst ++ [DStatus.failed] := by
        unfold statusTrace processJob
        rw [runStages_of_firstErr_some h]
        simp
      rw [stageWrites_take_statuses env k (Nat.le_of_lt hk)] at htr
      constructor
      · split_ifs at htr with h0 h13
        · exact Or.inr (Or.inr (Or.inl (by simpa using htr)))
        · exact Or.inr (Or.inl (by simpa using htr))
        · exact Or.inr (Or.inr (Or.inr (by simpa using htr)))
      · constructor
        · intro he
          rw [he] at htr
          split_ifs at htr <;> simp at htr
        · intro he
          exact absurd he (by simp [h])

/-- C9: whenever a stage raises, the remaining stages are skipped (the
observable writes and events are exactly those of the stages before the
raise), the `except` block writes Failed with the raised message stored
verbatim, and exactly one `failed` progress event — with progress 0 — is
published; in particular, extracted text that is empty after stripping
makes the job Fail at the emptiness check with a message containing
"no extractable text". -/
theorem c9_failure_handling (env : PipelineEnv) (k : Nat) (m : String)
    (h : firstErr (stageTable env) = some (k, m)) :
    processJob env =
      (stageWrites ((stageTable env).take k) ++ [(DStatus.failed, some m)],
        stageEvents ((stageTable env).take k) ++ [("failed", 0)])
    ∧ (processJob env).2.filter (fun e => e.1 == "failed") = [("failed", 0)]
    ∧ (env.textEmpty = true → (∀ j, j ≤ 4 → env.errAt j = none) →
        k = 5 ∧ m = emptyTextMsg ∧ "no extractable text".data <:+: m.data) := by
  have hpj : processJob env =
      (stageWrites ((stageTable env).take k) ++ [(DStatus.failed, some m)],
        stageEvents ((stageTable env).take k) ++ [("failed", 0)]) := by
    unfold processJob
    rw [runStages_of_firstErr_some h]
  refine ⟨hpj, ?_, ?_⟩
  · have hk : k < 15 := by simpa [stageTable] using firstErr_lt_length h
    rw [hpj]
    show (stageEvents ((stageTable env).take k) ++ [("failed", 0)]).filter
        (fun e => e.1 == "failed") = [("failed", 0)]
    rw [List.filter_append, stageEvents_take_no_failed env k (Nat.le_of_lt hk)]
    rfl
  · intro hte hj
    have h5 : firstErr (stageTable env) = some (5, emptyTextMsg) := by
      simp [stageTable, firstErr, hj 0 (by norm_num), hj 1 (by norm_num),
        hj 2 (by norm_num), hj 3 (by norm_num), hj 4 (by norm_num), hte]
    rw [h] at h5
    simp only [Option.some.injEq, Prod.mk.injEq] at h5
    obtain ⟨hk5, hm5⟩ := h5
    exact ⟨hk5, hm5, by rw [hm5]; decide⟩

/-- Witness for `c9_failure_handling`: the environment where extraction
returns empty text and nothing else raises. -/
theorem c9_failure_handling_witness :
    firstErr (stageTable ⟨fun _ => none, true⟩) = some (5, emptyTextMsg)
    ∧ processJob ⟨fun _ => none, true⟩ =
        ([(DStatus.processing, none), (DStatus.failed, some emptyTextMsg)],
          [("processing", 5), ("processing", 15), ("failed", 0)])
    ∧ (processJob ⟨fun _ => none, true⟩).2.filter (fun e => e.1 == "failed") =
        [("failed", 0)]
    ∧ "no extractable text".data <:+: emptyTextMsg.data := by
  have h := c9_failure_handling ⟨fun _ => none, true⟩ 5 emptyTextMsg (by decide)
  exact ⟨by decide, h.1, h.2.1, (h.2.2 rfl (fun j hj => rfl)).2.2⟩

theorem attachPieces_fields {c : ClauseChunk} :
    ∀ (k : Nat) (ps : List (List Char)) (x : ClauseChunk), x ∈ attachPieces c k ps →
      x.chunk_type = c.chunk_type ∧ x.section_number = c.section_number
        ∧ x.section_title = c.section_title ∧ x.text ∈ ps := by
  intro k ps
  induction ps generalizing k with
  | nil => intro x hx; simp [attachPieces] at hx
  | cons p ps ih =>
      intro x hx
      simp only [attachPieces, List.mem_cons] at hx
      rcases hx with hx | hx
      · subst hx
        exact ⟨rfl, rfl, rfl, by simp⟩
      · obtain ⟨h1, h2, h3, h4⟩ := ih (k + 1) x hx
        exact ⟨h1, h2, h3, by simp [h4]⟩

theorem splitLargeChunk_fields {c : ClauseChunk} {maxS : Nat} :
    ∀ x ∈ splitLargeChunk c maxS,
      x.chunk_type = c.chunk_type ∧ x.section_number = c.section_number
        ∧ x.section_title = c.section_title := by
  intro x hx
  simp only [splitLargeChunk] at hx
  split_ifs at hx with h
  · simp at hx
    subst hx
    exact ⟨rfl, rfl, rfl⟩
  · obtain ⟨h1, h2, h3, _⟩ := attachPieces_fields 1 _ x hx
    exact ⟨h1, h2, h3⟩

theorem splitLargeChunk_ne_nil {c : ClauseChunk} {maxS : Nat} :
    splitLargeChunk c maxS ≠ [] := by
  simp only [splitLargeChunk]
  split_ifs with h
  · simp
  · rcases hp : buildPieces maxS (splitSentences c.text) [] with _ | ⟨p, ps⟩
    · rw [hp] at h; simp at h
    · simp [attachPieces]

theorem okListB_headers_run {sp X : List ClauseChunk} {s t : List Char}
    (hsp : ∀ x ∈ sp, x.chunk_type = ChunkForm.section_header
      ∧ x.section_number = s ∧ x.section_title = t)
    (hX : okListB s t X = true) : okListB s t (sp ++ X) = true := by
  induction sp with
  | nil => simpa
  | cons x sp' ih =>
      obtain ⟨h1, h2, h3⟩ := hsp x (by simp)
      have := ih (fun y hy => hsp y (by simp [hy]))
      simpa [okListB, h1, h2, h3] using this

theorem okListB_headers_run' {sp X : List ClauseChunk} {s t : List Char}
    (hne : sp ≠ [])
    (hsp : ∀ x ∈ sp, x.chunk_type = ChunkForm.section_header
      ∧ x.section_number = s ∧ x.section_title = t)
    (hX : okListB s t X = true) (num title : List Char) :
    okListB num title (sp ++ X) = true := by
  rcases sp with _ | ⟨x, sp'⟩
  · exact absurd rfl hne
  · obtain ⟨h1, h2, h3⟩ := hsp x (by simp)
    have := @okListB_headers_run sp' X s t
      (fun y hy => hsp y (List.mem_cons_of_mem x hy)) hX
    simpa [okListB, h1, h2, h3] using this

theorem okListB_nonheaders_run {sp X : List ClauseChunk} {num title : List Char}
    (hsp : ∀ x ∈ sp, x.chunk_type ≠ ChunkForm.section_header
      ∧ x.section_number = num ∧ x.section_title = title)
    (hX : okListB num title X = true) : okListB num title (sp ++ X) = true := by
  induction sp with
  | nil => simpa
  | cons x sp' ih =>
      obtain ⟨h1, h2, h3⟩ := hsp x (by simp)
      have := ih (fun y hy => hsp y (by simp [hy]))
      simpa [okListB, h1, h2, h3] using this

theorem optimizeGo_nil (minS maxS fuel acc : Nat) :
    optimizeChunkSizesGo minS maxS fuel acc [] = [] := by
  cases fuel <;> rfl

theorem okListB_optimizeGo (minS maxS : Nat) :
    ∀ (fuel acc : Nat) (l : List ClauseChunk) (num title : List Char),
      okListB num title l = true →
      okListB num title (optimizeChunkSizesGo minS maxS fuel acc l) = true := by
  intro fuel
  induction fuel with
  | zero => intro acc l num title hok; simpa [optimizeChunkSizesGo] using hok
  | succ n ih =>
      intro acc l num title hok
      rcases l with _ | ⟨c, rest⟩
      · simpa [optimizeChunkSizesGo] using hok
      · have hbigcase : maxS < c.text.length →
            okListB num title
              (splitLargeChunk c maxS ++
                optimizeChunkSizesGo minS maxS n
                  (acc + (splitLargeChunk c maxS).length) rest) = true := by
          intro _
          by_cases hform : c.chunk_type = ChunkForm.section_header
          · have hok2 : okListB c.section_number c.section_title rest = true := by
              simpa [okListB, hform] using hok
            exact okListB_headers_run' splitLargeChunk_ne_nil
              (fun x hx => by
                obtain ⟨h1, h2, h3⟩ := splitLargeChunk_fields x hx
                exact ⟨h1.trans hform, h2, h3⟩)
              (ih _ rest c.section_number c.section_title hok2) num title
          · have hok2 : (c.section_number = num ∧ c.section_title = title)
                ∧ okListB num title rest = true := by
              simpa [okListB, hform] using hok
            exact okListB_nonheaders_run
              (fun x hx => by
                obtain ⟨h1, h2, h3⟩ := splitLargeChunk_fields x hx
                exact ⟨fun hc => hform (h1 ▸ hc), h2.trans hok2.1.1, h3.trans hok2.1.2⟩)
              (ih _ rest num title hok2.2)
        rcases rest with _ | ⟨nx, rest2⟩
        · simp only [optimizeChunkSizesGo]
          split_ifs with hbig
          · exact hbigcase hbig
          · exact hok
        · simp only [optimizeChunkSizesGo]
          split_ifs with hbig hcomb
          · exact hbigcase hbig
          · have hcc : c.chunk_type ≠ ChunkForm.section_header
                ∧ nx.chunk_type ≠ ChunkForm.section_header := by
              have hcb := hcomb
              unfold canCombine at hcb
              simp only [Bool.and_eq_true, decide_eq_true_eq] at hcb
              exact ⟨hcb.2.1.2, hcb.2.2⟩
            have h1 : (c.section_number = num ∧ c.section_title = title)
                ∧ okListB num title (nx :: rest2) = true := by
              simpa [okListB, hcc.1] using hok
            have h2 : (nx.section_number = num ∧ nx.section_title = title)
                ∧ okListB num title rest2 = true := by
              simpa [okListB, hcc.2] using h1.2
            have hrec := ih (acc + 1) rest2 num title h2.2
            simp [okListB, mkCombined, hcc.1, h1.1.1, h1.1.2, hrec]
          · by_cases hform : c.chunk_type = ChunkForm.section_header
            · have hok2 : okListB c.section_number c.section_title (nx :: rest2) = true := by
                simpa [okListB, hform] using hok
              have hrec := ih (acc + 1) (nx :: rest2) c.section_number c.section_title hok2
              simp [okListB, hform, hrec]
            · have hok2 : (c.section_number = num ∧ c.section_title = title)
                  ∧ okListB num title (nx :: rest2) = true := by
                simpa [okListB, hform] using hok
              have hrec := ih (acc + 1) (nx :: rest2) num title hok2.2
              simp [okListB, hform, hok2.1.1, hok2.1.2, hrec]

theorem okListB_reindexFrom :
    ∀ (k : Nat) (l : List ClauseChunk) (num title : List Char),
      okListB num title l = true → okListB num title (reindexFrom k l) = true := by
  intro k l
  induction l generalizing k with
  | nil => intro num title h; simpa [reindexFrom] using h
  | cons c rest ih =>
      intro num title h
      by_cases hform : c.chunk_type = ChunkForm.section_header
      · have h' : okListB c.section_number c.section_title rest = true := by
          simpa [okListB, hform] using h
        simpa [reindexFrom, okListB, hform] using ih (k + 1) _ _ h'
      · have h' : (c.section_number = num ∧ c.section_title = title)
            ∧ okListB num title rest = true := by
          simpa [okListB, hform] using h
        simpa [reindexFrom, okListB, hform, h'.1.1, h'.1.2] using ih (k + 1) _ _ h'.2

theorem okListB_emit (minSize : Nat) :
    ∀ (paras : List (List Char)) (idx : Nat) (num title : List Char),
      okListB num title (emitParas minSize paras idx num title).1 = true := by
  intro paras
  induction paras with
  | nil => intro idx num title; simp [emitParas, okListB]
  | cons para rest ih =>
      intro idx num title
      simp only [emitParas]
      rcases hm1 : matchSectionHeader para with _ | ⟨kw, n, rawTitle⟩
      · rcases hm2 : matchClausePara para with _ | g1
        · rcases hm3 : matchLetteredPara para with _ | letter
          · split_ifs with hlen
            · simpa [okListB] using ih (idx + 1) num title
            · exact ih idx num title
          · simpa [okListB] using ih (idx + 1) num title
        · have : (if 2 ≤ g1.count '.' then ChunkForm.sub_clause else ChunkForm.clause)
              ≠ ChunkForm.section_header := by
            split_ifs <;> simp
          simpa [okListB, this] using ih (idx + 1) num title
      · simpa [okListB] using ih (idx + 1) n _

/-- C6 counterexample: the parsing context is instance state set only in
`__init__` and never reset by `chunk_legal_document`.  A first invocation
on a document ending in section "5" leaves the (singleton) service's
context at ("5", "Termination"); the next invocation, on a document with no
section header, then tags its chunks with section "5" instead of the
preamble defaults — the claim's "starts at the default preamble section"
fails for every invocation after the first. -/
theorem c6_context_carryover_counterexample :
    (chunkLegalDocument initialSectionNumber initialSectionTitle
        "Article 5: Termination\n\nThe agreement ends here.".data 5 1500).2 =
      ("5".data, "Termination".data)
    ∧ ((chunkLegalDocument
          (chunkLegalDocument initialSectionNumber initialSectionTitle
            "Article 5: Termination\n\nThe agreement ends here.".data 5 1500).2.1
          (chunkLegalDocument initialSectionNumber initialSectionTitle
            "Article 5: Termination\n\nThe agreement ends here.".data 5 1500).2.2
          "A plain paragraph here.".data 5 1500).1.map ClauseChunk.section_number =
        ["5".data])
    ∧ "5".data ≠ initialSectionNumber := by
  decide

/-- C6 (amended): the preamble defaults ("0", "Preamble") are set when the
service is constructed, not per invocation — each invocation starts from
the context left by the previous one.  Within any invocation started in
context (num, title), every emitted chunk's section_number/section_title
equal those of the most recent section_header chunk at or before it, and
equal the starting context (the preamble defaults only on a fresh service)
before the first header. -/
theorem c6_section_inheritance (num title text : List Char) (minS maxS : Nat) :
    okListB num title (chunkLegalDocument num title text minS maxS).1 = true := by
  unfold chunkLegalDocument optimizeChunkSizes
  exact okListB_reindexFrom 0 _ num title
    (okListB_optimizeGo minS maxS _ 0 _ num title (okListB_emit minS _ 0 num title))

theorem mem_reindexFrom :
    ∀ (k : Nat) (l : List ClauseChunk) (x : ClauseChunk), x ∈ reindexFrom k l →
      ∃ y ∈ l, x = { y with chunk_index := x.chunk_index } := by
  intro k l
  induction l generalizing k with
  | nil => intro x hx; simp [reindexFrom] at hx
  | cons c rest ih =>
      intro x hx
      simp only [reindexFrom, List.mem_cons] at hx
      rcases hx with hx | hx
      · exact ⟨c, by simp, by rw [hx]⟩
      · obtain ⟨y, hy, hxy⟩ := ih (k + 1) x hx
        exact ⟨y, by simp [hy], hxy⟩

theorem combined_origin_go (minS maxS : Nat) :
    ∀ (fuel acc : Nat) (l : List ClauseChunk),
      (∀ x ∈ l, x.chunk_type ≠ ChunkForm.combined) →
      ∀ c ∈ optimizeChunkSizesGo minS maxS fuel acc l,
        c.chunk_type = ChunkForm.combined →
      ∃ a b l1 l2, l = l1 ++ a :: b :: l2
        ∧ a.text.length < minS
        ∧ a.section_number = b.section_number
        ∧ a.text.length + b.text.length < maxS
        ∧ a.chunk_type ≠ ChunkForm.section_header
        ∧ b.chunk_type ≠ ChunkForm.section_header
        ∧ c.text = a.text ++ '\n' :: '\n' :: b.text
        ∧ c.clause_number = a.clause_number
        ∧ c.section_number = a.section_number
        ∧ c.section_title = a.section_title := by
  intro fuel
  induction fuel with
  | zero =>
      intro acc l hin c hc hcomb
      exact absurd hcomb (hin c (by simpa [optimizeChunkSizesGo] using hc))
  | succ n ih =>
      intro acc l hin c hc hcomb
      rcases l with _ | ⟨c0, rest⟩
      · simp [optimizeChunkSizesGo] at hc
      · rcases rest with _ | ⟨nx, rest2⟩
        · simp only [optimizeChunkSizesGo] at hc
          split_ifs at hc with hbig
          · rw [List.mem_append] at hc
            rcases hc with hc | hc
            · exact absurd ((splitLargeChunk_fields c hc).1.symm ▸ hcomb)
                (hin c0 (by simp))
            · exact absurd hcomb (hin c (by simp [optimizeGo_nil] at hc))
          · simp at hc
            exact absurd hcomb (hc ▸ hin c0 (by simp))
        · simp only [optimizeChunkSizesGo] at hc
          split_ifs at hc with hbig hcmb
          · rw [List.mem_append] at hc
            rcases hc with hc | hc
            · exact absurd ((splitLargeChunk_fields c hc).1.symm ▸ hcomb)
                (hin c0 (by simp))
            · obtain ⟨a, b, l1, l2, heq, rest⟩ :=
                ih _ (nx :: rest2) (fun x hx => hin x (by simp [hx])) c hc hcomb
              exact ⟨a, b, c0 :: l1, l2, by simp [heq], rest⟩
          · simp only [List.mem_cons] at hc
            rcases hc with hc | hc
            · simp only [Bool.and_eq_true, decide_eq_true_eq] at hcmb
              obtain ⟨hsmall, hcan⟩ := hcmb
              unfold canCombine at hcan
              simp only [Bool.and_eq_true, decide_eq_true_eq] at hcan
              subst hc
              exact ⟨c0, nx, [], rest2, rfl, hsmall, hcan.1.1.1, hcan.1.1.2,
                hcan.1.2, hcan.2, rfl, rfl, rfl, rfl⟩
            · obtain ⟨a, b, l1, l2, heq, rest⟩ :=
                ih _ rest2 (fun x hx => hin x (by simp [hx])) c hc hcomb
              exact ⟨a, b, c0 :: nx :: l1, l2, by simp [heq], rest⟩
          · simp only [List.mem_cons] at hc
            rcases hc with hc | hc
            · exact absurd hcomb (hc ▸ hin c0 (by simp))
            · obtain ⟨a, b, l1, l2, heq, rest⟩ :=
                ih _ (nx :: rest2) (fun x hx => hin x (by simp [hx])) c hc hcomb
              exact ⟨a, b, c0 :: l1, l2, by simp [heq], rest⟩

/-- C5: in clause-aware post-processing, a `combined` chunk arises only by
merging two consecutive chunks of which the first is shorter than
`min_chunk_size`, both share the same `section_number`, their text lengths
total below `max_chunk_size`, and neither is a `section_header`; the merged
chunk carries the first chunk's `clause_number` and section context, so no
combined chunk spans two different section numbers. -/
theorem c5_merge_conditions (minS maxS : Nat) (l : List ClauseChunk)
    (hin : ∀ x ∈ l, x.chunk_type ≠ ChunkForm.combined)
    (c : ClauseChunk) (hc : c ∈ optimizeChunkSizes minS maxS l)
    (hcomb : c.chunk_type = ChunkForm.combined) :
    ∃ a b l1 l2, l = l1 ++ a :: b :: l2
      ∧ a.text.length < minS
      ∧ a.section_number = b.section_number
      ∧ a.text.length + b.text.length < maxS
      ∧ a.chunk_type ≠ ChunkForm.section_header
      ∧ b.chunk_type ≠ ChunkForm.section_header
      ∧ c.text = a.text ++ '\n' :: '\n' :: b.text
      ∧ c.clause_number = a.clause_number
      ∧ c.section_number = a.section_number
      ∧ c.section_title = a.section_title := by
  obtain ⟨y, hy, hxy⟩ := mem_reindexFrom 0 _ c hc
  have htext : c.text = y.text := by rw [hxy]
  have hclause : c.clause_number = y.clause_number := by rw [hxy]
  have hsn : c.section_number = y.section_number := by rw [hxy]
  have hst : c.section_title = y.section_title := by rw [hxy]
  have hct : c.chunk_type = y.chunk_type := by rw [hxy]
  obtain ⟨a, b, l1, l2, heq, h2, h3, h4, h5, h6, h7, h8, h9, h10⟩ :=
    combined_origin_go minS maxS l.length 0 l hin y hy (hct ▸ hcomb)
  exact ⟨a, b, l1, l2, heq, h2, h3, h4, h5, h6,
    htext.trans h7, hclause.trans h8, hsn.trans h9, hst.trans h10⟩

/-- Witness for `c5_merge_conditions`: two undersized clause chunks of
section "1" merge into one combined chunk. -/
theorem c5_merge_conditions_witness :
    (∀ x ∈ [(⟨"ab".data, "1.1".data, "1".data, "T".data, ChunkForm.clause, 0, 1⟩ : ClauseChunk),
            ⟨"cd".data, "1.2".data, "1".data, "T".data, ChunkForm.clause, 1, 1⟩],
        x.chunk_type ≠ ChunkForm.combined)
    ∧ (⟨"ab\n\ncd".data, "1.1".data, "1".data, "T".data, ChunkForm.combined, 0, 1⟩ : ClauseChunk)
        ∈ optimizeChunkSizes 5 100
          [⟨"ab".data, "1.1".data, "1".data, "T".data, ChunkForm.clause, 0, 1⟩,
           ⟨"cd".data, "1.2".data, "1".data, "T".data, ChunkForm.clause, 1, 1⟩]
    ∧ ∃ a b l1 l2,
        [(⟨"ab".data, "1.1".data, "1".data, "T".data, ChunkForm.clause, 0, 1⟩ : ClauseChunk),
         ⟨"cd".data, "1.2".data, "1".data, "T".data, ChunkForm.clause, 1, 1⟩] = l1 ++ a :: b :: l2
        ∧ a.text.length < 5
        ∧ a.section_number = b.section_number
        ∧ a.text.length + b.text.length < 100
        ∧ a.chunk_type ≠ ChunkForm.section_header
        ∧ b.chunk_type ≠ ChunkForm.section_header
        ∧ (⟨"ab\n\ncd".data, "1.1".data, "1".data, "T".data, ChunkForm.combined, 0, 1⟩
            : ClauseChunk).text = a.text ++ '\n' :: '\n' :: b.text
        ∧ (⟨"ab\n\ncd".data, "1.1".data, "1".data, "T".data, ChunkForm.combined, 0, 1⟩
            : ClauseChunk).clause_number = a.clause_number
        ∧ (⟨"ab\n\ncd".data, "1.1".data, "1".data, "T".data, ChunkForm.combined, 0, 1⟩
            : ClauseChunk).section_number = a.section_number
        ∧ (⟨"ab\n\ncd".data, "1.1".data, "1".data, "T".data, ChunkForm.combined, 0, 1⟩
            : ClauseChunk).section_title = a.section_title :=
  ⟨by decide, by decide,
    c5_merge_conditions 5 100 _ (by decide) _ (by decide) (by decide)⟩

theorem wsGo_append {l z : List Char} (h : wsGo l = true) : wsGo (l ++ z) = true := by
  induction l with
  | nil => simp [wsGo] at h
  | cons c r ih =>
      rw [wsGo] at h
      rw [List.cons_append, wsGo]
      split_ifs at h with hws
      · rw [if_pos hws]; exact ih h
      · rw [if_neg hws]; exact h

theorem boundAhead_append {l z : List Char} (h : boundAhead l = true) :
    boundAhead (l ++ z) = true := by
  cases l with
  | nil => simp [boundAhead] at h
  | cons c r =>
      rw [boundAhead, Bool.and_eq_true] at h
      rw [List.cons_append, boundAhead, Bool.and_eq_true]
      exact ⟨h.1, wsGo_append h.2⟩

theorem findCut_pre_append {l : List Char} {p r : List Char}
    (h : findCut l = some (p, r)) : ∃ z, l = p ++ z := by
  induction l generalizing p with
  | nil => simp [findCut] at h
  | cons c rest ih =>
      rw [findCut] at h
      split_ifs at h with hcut
      · simp only [Option.some.injEq, Prod.mk.injEq] at h
        exact ⟨rest, by simp [← h.1]⟩
      · cases hr : findCut rest with
        | none => rw [hr] at h; simp at h
        | some q =>
            obtain ⟨p', r'⟩ := q
            rw [hr] at h
            simp only [Option.some.injEq, Prod.mk.injEq] at h
            obtain ⟨z, hz⟩ := ih (p := p') (by rw [hr, h.2])
            exact ⟨z, by rw [← h.1, List.cons_append, ← hz]⟩

theorem findCut_none_of_prefix {l z : List Char} (h : findCut (l ++ z) = none) :
    findCut l = none := by
  induction l with
  | nil => rfl
  | cons c rest ih =>
      rw [List.cons_append, findCut] at h
      rw [findCut]
      split_ifs at h with hcut
      split_ifs with hcut'
      · rw [Bool.and_eq_true] at hcut'
        exact absurd (Bool.and_eq_true _ _ |>.mpr ⟨hcut'.1, boundAhead_append hcut'.2⟩) hcut
      · cases hr : findCut rest with
        | none => rfl
        | some q =>
            have : findCut (rest ++ z) = none := by
              cases hq : findCut (rest ++ z) with
              | none => rfl
              | some q' => rw [hq] at h; simp at h
            rw [ih this] at hr
            exact absurd hr (by simp)

theorem findCut_none_of_suffix {z l : List Char} (h : findCut (z ++ l) = none) :
    findCut l = none := by
  induction z with
  | nil => simpa using h
  | cons c rest ih =>
      rw [List.cons_append, findCut] at h
      split_ifs at h with hcut
      cases hr : findCut (rest ++ l) with
      | none => exact ih hr
      | some q => rw [hr] at h; simp at h

theorem findCut_rem_lt {l p r : List Char} (h : findCut l = some (p, r)) :
    r.length < l.length := by
  induction l generalizing p with
  | nil => simp [findCut] at h
  | cons c rest ih =>
      rw [findCut] at h
      split_ifs at h with hcut
      · simp only [Option.some.injEq, Prod.mk.injEq] at h
        rw [← h.2]
        calc (rest.drop (rest.takeWhile isWSChar).length).length
            ≤ rest.length := by simp
          _ < (c :: rest).length := by simp
      · cases hr : findCut rest with
        | none => rw [hr] at h; simp at h
        | some q =>
            obtain ⟨p', r'⟩ := q
            rw [hr] at h
            simp only [Option.some.injEq, Prod.mk.injEq] at h
            have := ih (p := p') (by rw [hr, h.2])
            simp only [List.length_cons]
            omega

theorem findCut_pre_none {l p r : List Char} (h : findCut l = some (p, r)) :
    findCut p = none := by
  induction l generalizing p with
  | nil => simp [findCut] at h
  | cons c rest ih =>
      rw [findCut] at h
      split_ifs at h with hcut
      · simp only [Option.some.injEq, Prod.mk.injEq] at h
        rw [← h.1]
        simp [findCut, boundAhead]
      · cases hr : findCut rest with
        | none => rw [hr] at h; simp at h
        | some q =>
            obtain ⟨p', r'⟩ := q
            rw [hr] at h
            simp only [Option.some.injEq, Prod.mk.injEq] at h
            have hp' : findCut p' = none := ih (by rw [hr, h.2])
            obtain ⟨z, hz⟩ := findCut_pre_append (by rw [hr, h.2] : findCut rest = some (p', r))
            rw [← h.1, findCut]
            split_ifs with hcut'
            · rw [Bool.and_eq_true] at hcut'
              have : (isSentencePunct c && boundAhead rest) = true := by
                rw [Bool.and_eq_true]
                exact ⟨hcut'.1, hz ▸ boundAhead_append hcut'.2⟩
              exact absurd this hcut
            · rw [hp']

theorem findCut_pre_punct {l p r : List Char} (h : findCut l = some (p, r)) :
    ∃ q pc, p = q ++ [pc] ∧ isSentencePunct pc = true := by
  induction l generalizing p with
  | nil => simp [findCut] at h
  | cons c rest ih =>
      rw [findCut] at h
      split_ifs at h with hcut
      · simp only [Option.some.injEq, Prod.mk.injEq] at h
        exact ⟨[], c, by simp [← h.1], (Bool.and_eq_true _ _ |>.mp hcut).1⟩
      · cases hr : findCut rest with
        | none => rw [hr] at h; simp at h
        | some q =>
            obtain ⟨p', r'⟩ := q
            rw [hr] at h
            simp only [Option.some.injEq, Prod.mk.injEq] at h
            obtain ⟨q', pc, hq, hpc⟩ := ih (p := p') (by rw [hr, h.2])
            exact ⟨c :: q', pc, by rw [← h.1, hq]; rfl, hpc⟩

theorem splitSentencesGo_no_cut :
    ∀ (fuel : Nat) (l : List Char), l.length ≤ fuel →
      ∀ s ∈ splitSentencesGo fuel l, findCut s = none := by
  intro fuel
  induction fuel with
  | zero =>
      intro l hl s hs
      have : l = [] := by cases l <;> simp_all
      subst this
      simp only [splitSentencesGo, List.mem_singleton] at hs
      subst hs
      rfl
  | succ n ih =>
      intro l hl s hs
      rw [splitSentencesGo] at hs
      cases hc : findCut l with
      | none =>
          rw [hc] at hs
          simp only [List.mem_singleton] at hs
          subst hs
          exact hc
      | some q =>
          obtain ⟨p, rem⟩ := q
          rw [hc] at hs
          simp only [List.mem_cons] at hs
          rcases hs with hs | hs
          · subst hs
            exact findCut_pre_none hc
          · have hlt := findCut_rem_lt hc
            exact ih rem (by omega) s hs

theorem stripChars_decomp (l : List Char) :
    ∃ z1 z2, l = z1 ++ stripChars l ++ z2
      ∧ (∀ c ∈ z1, isWSChar c = true) ∧ (∀ c ∈ z2, isWSChar c = true) := by
  have hy : ∀ y : List Char,
      y = dropTrailWS y ++ (y.reverse.takeWhile isWSChar).reverse := by
    intro y
    calc y = y.reverse.reverse := by rw [List.reverse_reverse]
      _ = (y.reverse.takeWhile isWSChar ++ y.reverse.dropWhile isWSChar).reverse := by
            rw [List.takeWhile_append_dropWhile]
      _ = (y.reverse.dropWhile isWSChar).reverse ++ (y.reverse.takeWhile isWSChar).reverse := by
            rw [List.reverse_append]
      _ = dropTrailWS y ++ (y.reverse.takeWhile isWSChar).reverse := rfl
  refine ⟨l.takeWhile isWSChar,
    ((l.dropWhile isWSChar).reverse.takeWhile isWSChar).reverse, ?_, ?_, ?_⟩
  · calc l = l.takeWhile isWSChar ++ l.dropWhile isWSChar := by
          rw [List.takeWhile_append_dropWhile]
      _ = l.takeWhile isWSChar ++ (dropTrailWS (l.dropWhile isWSChar) ++
            ((l.dropWhile isWSChar).reverse.takeWhile isWSChar).reverse) := by
          rw [← hy]
      _ = l.takeWhile isWSChar ++ stripChars l ++
            ((l.dropWhile isWSChar).reverse.takeWhile isWSChar).reverse := by
          rw [List.append_assoc]
          rfl
  · intro c hc
    exact List.mem_takeWhile_imp hc
  · intro c hc
    rw [List.mem_reverse] at hc
    exact List.mem_takeWhile_imp hc

theorem findCut_stripChars_none {l : List Char} (h : findCut l = none) :
    findCut (stripChars l) = none := by
  obtain ⟨z1, z2, hl, _, _⟩ := stripChars_decomp l
  rw [hl] at h
  exact findCut_none_of_prefix (findCut_none_of_suffix (by rwa [List.append_assoc] at h))

theorem stripChars_length_le (l : List Char) : (stripChars l).length ≤ l.length := by
  obtain ⟨z1, z2, hl, _, _⟩ := stripChars_decomp l
  conv_rhs => rw [hl]
  simp only [List.length_append]
  omega

theorem dropTrailWS_append_ws {y : List Char} {w : Char} (hw : isWSChar w = true) :
    dropTrailWS (y ++ [w]) = dropTrailWS y := by
  unfold dropTrailWS
  rw [List.reverse_append]
  simp [List.dropWhile, hw]

theorem stripChars_append_ws {l : List Char} {w : Char} (hw : isWSChar w = true) :
    stripChars (l ++ [w]) = stripChars l := by
  unfold stripChars
  by_cases hall : l.dropWhile isWSChar = []
  · rw [List.dropWhile_append]
    simp only [hall, List.isEmpty_nil, if_true]
    simp [List.dropWhile, hw, hall, dropTrailWS]
  · rw [List.dropWhile_append]
    simp only [List.isEmpty_iff, hall, if_false]
    exact dropTrailWS_append_ws hw

theorem stripChars_eq_nil_iff {l : List Char} :
    stripChars l = [] ↔ ∀ c ∈ l, isWSChar c = true := by
  constructor
  · intro h c hc
    obtain ⟨z1, z2, hl, h1, h2⟩ := stripChars_decomp l
    rw [hl, h] at hc
    simp only [List.append_nil, List.mem_append] at hc
    rcases hc with hc | hc
    · exact h1 c hc
    · exact h2 c hc
  · intro h
    have : l.dropWhile isWSChar = [] := List.dropWhile_eq_nil_iff.mpr h
    simp [stripChars, this, dropTrailWS]

theorem buildPieces_sizes (maxS : Nat) :
    ∀ (ss : List (List Char)) (cur : List Char),
      (∀ s ∈ ss, findCut s = none) →
      ((stripChars cur).length < maxS ∨ findCut (stripChars cur) = none) →
      ∀ p ∈ buildPieces maxS ss cur, p.length ≤ maxS ∨ findCut p = none := by
  intro ss
  induction ss with
  | nil =>
      intro cur hss hcur p hp
      simp only [buildPieces] at hp
      split_ifs at hp with hemp
      · simp at hp
      · simp only [List.mem_singleton] at hp
        subst hp
        rcases hcur with h | h
        · exact Or.inl (Nat.le_of_lt h)
        · exact Or.inr h
  | cons s ss ih =>
      intro cur hss hcur p hp
      have hflush : p = stripChars cur → p.length ≤ maxS ∨ findCut p = none := by
        intro hpe
        subst hpe
        rcases hcur with h | h
        · exact Or.inl (Nat.le_of_lt h)
        · exact Or.inr h
      have hnext : p ∈ buildPieces maxS ss (s ++ [' ']) →
          p.length ≤ maxS ∨ findCut p = none := by
        intro hmem
        refine ih _ (fun t ht => hss t (List.mem_cons_of_mem s ht)) (Or.inr ?_) p hmem
        rw [stripChars_append_ws (by decide)]
        exact findCut_stripChars_none (hss s (List.mem_cons_self s ss))
      simp only [buildPieces] at hp
      split_ifs at hp with hfit hemp
      · refine ih _ (fun t ht => hss t (List.mem_cons_of_mem s ht)) (Or.inl ?_) p hp
        calc (stripChars (cur ++ s ++ [' '])).length
            = (stripChars (cur ++ s)).length := by
              rw [stripChars_append_ws (by decide)]
          _ ≤ (cur ++ s).length := stripChars_length_le _
          _ = cur.length + s.length := by simp
          _ < maxS := hfit
      · exact hnext (by simpa using hp)
      · rw [List.mem_append, List.mem_singleton] at hp
        rcases hp with hp | hp
        · exact hflush hp
        · exact hnext hp

theorem buildPieces_nil_allWS (maxS : Nat) :
    ∀ (ss : List (List Char)) (cur : List Char), buildPieces maxS ss cur = [] →
      (∀ c ∈ cur, isWSChar c = true) ∧ ∀ s ∈ ss, ∀ c ∈ s, isWSChar c = true := by
  intro ss
  induction ss with
  | nil =>
      intro cur h
      simp only [buildPieces] at h
      split_ifs at h with hemp
      exact ⟨fun c hc => stripChars_eq_nil_iff.mp (List.isEmpty_iff.mp hemp) c hc,
        by simp⟩
  | cons s ss ih =>
      intro cur h
      have hout : (∀ c ∈ s ++ [' '], isWSChar c = true) →
          (∀ t ∈ ss, ∀ c ∈ t, isWSChar c = true) →
          ∀ t ∈ s :: ss, ∀ c ∈ t, isWSChar c = true := by
        intro h1 h2 t ht
        rcases List.mem_cons.mp ht with ht | ht
        · subst ht
          intro c hc
          exact h1 c (by simp [hc])
        · exact h2 t ht
      simp only [buildPieces] at h
      split_ifs at h with hfit hemp
      · obtain ⟨hcur, hrest⟩ := ih _ h
        refine ⟨fun c hc => hcur c (by simp [hc]), ?_⟩
        refine hout (fun c hc => hcur c ?_) hrest
        rcases List.mem_append.mp hc with hc | hc
        · simp [hc]
        · simp at hc
          simp [hc]
      · obtain ⟨hs', hrest⟩ := ih _ (by simpa using h)
        exact ⟨fun c hc => stripChars_eq_nil_iff.mp (List.isEmpty_iff.mp hemp) c hc,
          hout hs' hrest⟩
      · rw [List.append_eq_nil] at h
        exact absurd h.1 (by simp)

theorem splitLargeChunk_sizes (c : ClauseChunk) (maxS : Nat) :
    ∀ x ∈ splitLargeChunk c maxS, x.text.length ≤ maxS ∨ findCut x.text = none := by
  intro x hx
  simp only [splitLargeChunk] at hx
  split_ifs at hx with hemp
  · simp only [List.mem_singleton] at hx
    subst hx
    right
    rw [List.isEmpty_iff] at hemp
    obtain ⟨_, hws⟩ := buildPieces_nil_allWS maxS _ _ hemp
    cases hfc : findCut x.text with
    | none => rfl
    | some q =>
        obtain ⟨p, rem⟩ := q
        have hne : x.text ≠ [] := by
          intro h0
          rw [h0] at hfc
          simp [findCut] at hfc
        have hmem : p ∈ splitSentences x.text := by
          unfold splitSentences
          rcases hlen : x.text.length with _ | n
          · exact absurd (List.length_eq_zero.mp hlen) hne
          · rw [splitSentencesGo, hfc]
            simp
        obtain ⟨q', pc, hpq, hpc⟩ := findCut_pre_punct hfc
        have hwsp := hws p hmem pc (by rw [hpq]; simp)
        have hnot : isWSChar pc = false := by
          rcases (by simpa [isSentencePunct, or_assoc] using hpc :
              pc = '.' ∨ pc = '!' ∨ pc = '?')
            with h | h | h <;> subst h <;> rfl
        rw [hwsp] at hnot
        cases hnot
  · obtain ⟨_, _, _, htext⟩ := attachPieces_fields 1 _ x hx
    exact buildPieces_sizes maxS _ []
      (splitSentencesGo_no_cut _ _ (le_refl _)) (Or.inr (by decide)) x.text htext

theorem c4_bound_go (minS maxS : Nat) :
    ∀ (fuel acc : Nat) (l : List ClauseChunk), l.length ≤ fuel →
      ∀ c ∈ optimizeChunkSizesGo minS maxS fuel acc l,
        c.text.length ≤ maxS ∨ findCut c.text = none
          ∨ (c.chunk_type = ChunkForm.combined ∧ c.text.length ≤ maxS + 1) := by
  intro fuel
  induction fuel with
  | zero =>
      intro acc l hlen c hc
      have : l = [] := by cases l <;> simp_all
      subst this
      simp [optimizeChunkSizesGo] at hc
  | succ n ih =>
      intro acc l hlen c hc
      rcases l with _ | ⟨c0, rest⟩
      · simp [optimizeChunkSizesGo] at hc
      · rcases rest with _ | ⟨nx, rest2⟩
        · simp only [optimizeChunkSizesGo] at hc
          split_ifs at hc with hbig
          · rw [optimizeGo_nil, List.append_nil] at hc
            rcases splitLargeChunk_sizes c0 maxS c hc with h | h
            · exact Or.inl h
            · exact Or.inr (Or.inl h)
          · simp only [List.mem_singleton] at hc
            subst hc
            exact Or.inl (Nat.le_of_not_lt hbig)
        · simp only [optimizeChunkSizesGo] at hc
          split_ifs at hc with hbig hcmb
          · rw [List.mem_append] at hc
            rcases hc with hc | hc
            · rcases splitLargeChunk_sizes c0 maxS c hc with h | h
              · exact Or.inl h
              · exact Or.inr (Or.inl h)
            · exact ih _ (nx :: rest2) (by simp at hlen ⊢; omega) c hc
          · simp only [List.mem_cons] at hc
            rcases hc with hc | hc
            · subst hc
              refine Or.inr (Or.inr ⟨rfl, ?_⟩)
              simp only [Bool.and_eq_true, decide_eq_true_eq] at hcmb
              have hcan := hcmb.2
              unfold canCombine at hcan
              simp only [Bool.and_eq_true, decide_eq_true_eq] at hcan
              have hsum := hcan.1.1.2
              simp only [mkCombined, List.length_append, List.length_cons]
              omega
            · exact ih _ rest2 (by simp at hlen ⊢; omega) c hc
          · simp only [List.mem_cons] at hc
            rcases hc with hc | hc
            · subst hc
              exact Or.inl (Nat.le_of_not_lt hbig)
            · exact ih _ (nx :: rest2) (by simp at hlen ⊢; omega) c hc

/-- C4 counterexample: with `min_chunk_size = 1`, `max_chunk_size = 5`, the
ten-character single "sentence" AAAAAAAAAA has no sentence boundary, so
`_split_large_chunk` keeps it whole and the returned list contains a chunk
of 10 > 5 characters. -/
theorem c4_oversized_counterexample :
    ∃ c ∈ (chunkLegalDocument initialSectionNumber initialSectionTitle
        "AAAAAAAAAA".data 1 5).1, 5 < c.text.length := by
  decide

/-- C4 (amended): after the clause-aware post-processing every chunk's text
is at most `max_chunk_size` characters long, except that (a) a chunk whose
text contains no sentence boundary (`findCut` = none) may be kept whole at
any length, and (b) a `combined` chunk may exceed `max_chunk_size` by one
character (its two texts total below the maximum, plus the two-character
blank-line joiner). -/
theorem c4_chunk_size_bound (num title text : List Char) (minS maxS : Nat)
    (c : ClauseChunk) (hc : c ∈ (chunkLegalDocument num title text minS maxS).1) :
    c.text.length ≤ maxS ∨ findCut c.text = none
      ∨ (c.chunk_type = ChunkForm.combined ∧ c.text.length ≤ maxS + 1) := by
  unfold chunkLegalDocument optimizeChunkSizes at hc
  obtain ⟨y, hy, hxy⟩ := mem_reindexFrom 0 _ c hc
  have htext : c.text = y.text := by rw [hxy]
  have hct : c.chunk_type = y.chunk_type := by rw [hxy]
  rw [htext, hct]
  exact c4_bound_go minS maxS _ 0 _ (le_refl _) y hy

/-- Witness for `c4_chunk_size_bound` at a concrete in-bounds document. -/
theorem c4_chunk_size_bound_witness :
    (⟨"Hello.".data, "0.p0".data, "0".data, "Preamble".data,
        ChunkForm.paragraph, 0, 1⟩ : ClauseChunk)
      ∈ (chunkLegalDocument initialSectionNumber initialSectionTitle
          "Hello.".data 0 100).1
    ∧ ((⟨"Hello.".data, "0.p0".data, "0".data, "Preamble".data,
          ChunkForm.paragraph, 0, 1⟩ : ClauseChunk).text.length ≤ 100
        ∨ findCut (⟨"Hello.".data, "0.p0".data, "0".data, "Preamble".data,
            ChunkForm.paragraph, 0, 1⟩ : ClauseChunk).text = none
        ∨ ((⟨"Hello.".data, "0.p0".data, "0".data, "Preamble".data,
              ChunkForm.paragraph, 0, 1⟩ : ClauseChunk).chunk_type = ChunkForm.combined
            ∧ (⟨"Hello.".data, "0.p0".data, "0".data, "Preamble".data,
                ChunkForm.paragraph, 0, 1⟩ : ClauseChunk).text.length ≤ 101)) :=
  ⟨by decide,
    c4_chunk_size_bound initialSectionNumber initialSectionTitle
      "Hello.".data 0 100 _ (by decide)⟩

theorem sliceAt_cast (text : List Char) (a b : Nat) :
    sliceAt text (a : Int) (b : Int) = (text.take b).drop a := by
  simp [sliceAt, Int.toNat_natCast]

theorem sliceAt_window (text : List Char) (p k : Nat) :
    sliceAt text (p : Int) ((p : Int) + (k : Int)) = (text.drop p).take k := by
  have hc : (p : Int) + (k : Int) = ((p + k : Nat) : Int) := by push_cast; ring
  rw [hc, sliceAt_cast, List.drop_take]
  congr 1
  omega

theorem sliceAt_drop (text : List Char) (a k : Nat) (b : Int) :
    sliceAt text ((a : Int) + (k : Int)) b = (sliceAt text (a : Int) b).drop k := by
  have hc : (a : Int) + (k : Int) = ((a + k : Nat) : Int) := by push_cast; ring
  rw [hc]
  simp only [sliceAt, Int.toNat_natCast]
  conv_rhs => rw [List.drop_drop]

theorem splitWindows_ne_nil (size step fuel : Nat) (l : List Char) :
    splitWindows size step fuel l ≠ [] := by
  cases fuel with
  | zero => simp [splitWindows]
  | succ n =>
      rw [splitWindows]
      split_ifs <;> simp

theorem splitWindows_head {size step fuel : Nat} {l : List Char}
    {w : List Char} {ws : List (List Char)}
    (h : splitWindows size step fuel l = w :: ws) :
    w = l.take size ∨ w = l := by
  cases fuel with
  | zero =>
      rw [splitWindows] at h
      simp only [List.cons.injEq] at h
      exact Or.inr h.1.symm
  | succ n =>
      rw [splitWindows] at h
      split_ifs at h
      · simp only [List.cons.injEq] at h
        exact Or.inl h.1.symm
      · simp only [List.cons.injEq] at h
        exact Or.inr h.1.symm

theorem chunkEngine (size overlap : Nat) (hov : overlap < size) (text : List Char) :
    ∀ (fuel p idx : Nat), (text.drop p).length < fuel →
      List.Chain' (fun a b => a.start_char ≤ b.start_char)
        (buildChunks overlap idx (p : Int)
          (splitWindows size (size - overlap) fuel (text.drop p)))
      ∧ List.Chain' (fun a b => a.end_char - b.start_char = (overlap : Int))
        (buildChunks overlap idx (p : Int)
          (splitWindows size (size - overlap) fuel (text.drop p)))
      ∧ (match buildChunks overlap idx (p : Int)
            (splitWindows size (size - overlap) fuel (text.drop p)) with
         | [] => True
         | c :: rest =>
             sliceAt text c.start_char c.end_char ++
               (rest.map (fun d => sliceAt text (d.start_char + (overlap : Int))
                 d.end_char)).flatten = text.drop p) := by
  intro fuel
  induction fuel with
  | zero => intro p idx h; simp at h
  | succ n ih =>
      intro p idx hlen
      by_cases hc : size < (text.drop p).length ∧ 0 < size - overlap
      · have hsz : size - overlap + overlap = size := Nat.sub_add_cancel (le_of_lt hov)
        have hsw : splitWindows size (size - overlap) (n + 1) (text.drop p)
            = (text.drop p).take size
              :: splitWindows size (size - overlap) n
                  ((text.drop p).drop (size - overlap)) := by
          rw [splitWindows, if_pos hc]
        have hdd : (text.drop p).drop (size - overlap) = text.drop (p + (size - overlap)) := by
          rw [List.drop_drop]
        have hwlen : ((text.drop p).take size).length = size := by
          rw [List.length_take]
          exact min_eq_left (le_of_lt hc.1)
        have hoff : (p : Int) + (((text.drop p).take size).length : Int) - (overlap : Int)
            = ((p + (size - overlap) : Nat) : Int) := by
          rw [hwlen]
          push_cast [Nat.cast_sub (le_of_lt hov)]
          ring
        have hlen' : (text.drop (p + (size - overlap))).length < n := by
          have h1 := hc.1
          have h2 := hc.2
          simp only [List.length_drop] at hlen h1 ⊢
          omega
        have hllen : overlap < (text.drop (p + (size - overlap))).length := by
          have h1 := hc.1
          simp only [List.length_drop] at h1 ⊢
          omega
        have IH := ih (p + (size - overlap)) (idx + 1) hlen'
        rcases hsw' : splitWindows size (size - overlap) n
            (text.drop (p + (size - overlap))) with _ | ⟨w0, ws⟩
        · exact absurd hsw' (splitWindows_ne_nil _ _ _ _)
        · have hw0len : overlap ≤ w0.length := by
            rcases splitWindows_head hsw' with h | h
            · rw [h, List.length_take]
              simp only [Nat.min_def]
              split_ifs <;> omega
            · rw [h]
              exact le_of_lt hllen
          have hw0take : w0 = (text.drop (p + (size - overlap))).take w0.length := by
            rcases splitWindows_head hsw' with h | h
            · by_cases hls : size ≤ (text.drop (p + (size - overlap))).length
              · rw [h, List.length_take, min_eq_left hls]
              · have hw : (text.drop (p + (size - overlap))).take size
                    = text.drop (p + (size - overlap)) :=
                  List.take_of_length_le (le_of_not_le hls)
                rw [h, hw, List.take_length]
            · rw [h, List.take_length]
          rw [hsw, hdd]
          simp only [buildChunks, hoff, hsw']
          rw [hsw'] at IH
          simp only [buildChunks] at IH
          have hslice0 : sliceAt text (p : Int)
              ((p : Int) + (((text.drop p).take size).length : Int))
              = (text.drop p).take size := by
            rw [hwlen, sliceAt_window, ← hwlen]
          have hslice1 : sliceAt text ((p + (size - overlap) : Nat) : Int)
              (((p + (size - overlap) : Nat) : Int) + (w0.length : Int)) = w0 := by
            rw [sliceAt_window, ← hw0take]
          have hdropped : sliceAt text
              (((p + (size - overlap) : Nat) : Int) + (overlap : Int))
              (((p + (size - overlap) : Nat) : Int) + (w0.length : Int))
              = w0.drop overlap := by
            rw [sliceAt_drop, hslice1]
          refine ⟨?_, ?_, ?_⟩
          · rw [List.chain'_cons]
            constructor
            · show (p : Int) ≤ ((p + (size - overlap) : Nat) : Int)
              push_cast
              omega
            · exact IH.1
          · rw [List.chain'_cons]
            constructor
            · show ((p : Int) + (((text.drop p).take size).length : Int))
                  - ((p + (size - overlap) : Nat) : Int) = (overlap : Int)
              rw [hwlen]
              push_cast [Nat.cast_sub (le_of_lt hov)]
              ring
            · exact IH.2.1
          · simp only [List.map_cons, List.flatten_cons]
            rw [hslice0, hdropped]
            have e1 : (text.drop p).take size
                = (text.drop p).take (size - overlap) ++
                  (text.drop (p + (size - overlap))).take overlap := by
              conv_lhs => rw [← hsz]
              rw [List.take_add, hdd]
            have e2 : (text.drop (p + (size - overlap))).take overlap
                = w0.take overlap := by
              conv_rhs => rw [hw0take]
              rw [List.take_take, min_eq_left hw0len]
            have hIH3 : w0 ++ (List.map (fun d => sliceAt text
                (d.start_char + (overlap : Int)) d.end_char)
                  (buildChunks overlap (idx + 1 + 1)
                    (((p + (size - overlap) : Nat) : Int) + (w0.length : Int)
                      - (overlap : Int)) ws)).flatten
                = text.drop (p + (size - overlap)) := by
              have h3 := IH.2.2
              rwa [hslice1] at h3
            push_cast [Nat.cast_sub (le_of_lt hov)] at hIH3 ⊢
            rw [e1, e2, List.append_assoc, ← List.append_assoc (w0.take overlap),
              List.take_append_drop, hIH3, ← hdd, List.take_append_drop]
      · rw [splitWindows, if_neg hc]
        simp only [buildChunks]
        refine ⟨List.chain'_singleton _, List.chain'_singleton _, ?_⟩
        show sliceAt text (p : Int)
            ((p : Int) + (((text.drop p).length : Nat) : Int)) ++
            (List.map _ []).flatten = text.drop p
        rw [sliceAt_window]
        simp [List.take_length]

/-- C7: for every text (spec-modelled raw splitter, see `splitWindows`),
the generic segmenter's chunks have non-decreasing `start_char`, every pair
of consecutive chunks overlaps by exactly `chunk_overlap` characters
(`end_char − next.start_char = overlap`, which also covers the final pair),
and concatenating the chunks' non-overlapping spans — the first chunk's
whole span and each later chunk's span minus its first `overlap`
characters — reconstructs the original text exactly. -/
theorem c7_generic_segmenter_spans (size overlap : Nat) (text : List Char)
    (h1 : overlap < size) (h2 : 0 < text.length) :
    List.Chain' (fun a b => a.start_char ≤ b.start_char) (chunkText size overlap text)
    ∧ List.Chain' (fun a b => a.end_char - b.start_char = (overlap : Int))
        (chunkText size overlap text)
    ∧ spansConcat text overlap (chunkText size overlap text) = text := by
  have h := chunkEngine size overlap h1 text (text.length + 1) 0 0
    (by simp [List.drop_zero])
  rw [List.drop_zero] at h
  have hct : chunkText size overlap text = buildChunks overlap 0 ((0 : Nat) : Int)
      (splitWindows size (size - overlap) (text.length + 1) text) := by
    unfold chunkText
    norm_num
  rw [hct]
  refine ⟨h.1, h.2.1, ?_⟩
  have h3 := h.2.2
  rcases hcl : buildChunks overlap 0 ((0 : Nat) : Int)
      (splitWindows size (size - overlap) (text.length + 1) text) with _ | ⟨c, rest⟩
  · rcases hw : splitWindows size (size - overlap) (text.length + 1) text
      with _ | ⟨w, ws⟩
    · exact absurd hw (splitWindows_ne_nil _ _ _ _)
    · rw [hw] at hcl
      simp [buildChunks] at hcl
  · rw [hcl] at h3
    exact h3

/-- Witness for `c7_generic_segmenter_spans` at size 5, overlap 2 on an
8-character text. -/
theorem c7_generic_segmenter_spans_witness :
    List.Chain' (fun a b => a.start_char ≤ b.start_char)
      (chunkText 5 2 "abcdefgh".data)
    ∧ List.Chain' (fun a b => a.end_char - b.start_char = ((2 : Nat) : Int))
        (chunkText 5 2 "abcdefgh".data)
    ∧ spansConcat "abcdefgh".data 2 (chunkText 5 2 "abcdefgh".data) = "abcdefgh".data :=
  c7_generic_segmenter_spans 5 2 "abcdefgh".data (by decide) (by decide)
